import Mathlib

/-!
Verification development for the `safe-pc` repository.

The central objects are the cpio "newc" codec in
`src/safe_pc/proxmox_auto_installer/utils/initrd_utils.py`
(`_parse_cpio_newc_to_dir`, `_build_cpio_newc_from_dir`, `unpack_initrd`,
`repack_initrd`), the ISO job pipeline in
`src/proxmox_auto_installer/back_end/iso_jobs.py` (`Job.run`, `Job.stop`,
`Job.on_finish`, the module-level job registry), the admission-controlled
submission route `installer_iso_route` / `post_installer_iso`, the websocket
observer route `installer_iso_ws_route`, and the content-addressed cache
`CacheManager` in `answer_file/cached_answers.py`.

Bytes are modelled as `List Nat` (each element a byte value).  File names
are kept as their byte sequences; the Python code decodes them as UTF-8
(strict for entry names, ignore for symlink targets), which is modelled
explicitly below.  Machine integers do not occur: Python integers are
unbounded, and the cpio header stores fields as 8-digit hexadecimal text,
so values are `Nat` with explicit bounds where the format imposes them.
-/

namespace SafePC

/-- Byte strings are lists of natural numbers; in well-formed data every
element is below 256. -/
abbrev Bytes := List Nat

/-- ASCII bytes of the cpio newc magic string "070701". -/
def magicBytes : Bytes := [48, 55, 48, 55, 48, 49]

/-- ASCII bytes of the cpio trailer entry name "TRAILER!!!". -/
def trailerBytes : Bytes := [84, 82, 65, 73, 76, 69, 82, 33, 33, 33]

/-- ASCII bytes of META_FILE = ".cpio_metadata.json" (already lower case). -/
def metaFileBytes : Bytes :=
  [46, 99, 112, 105, 111, 95, 109, 101, 116, 97, 100, 97, 116, 97, 46, 106, 115, 111, 110]

/-- ASCII bytes of ".". -/
def dotBytes : Bytes := [46]

/-- CPIO_HEADER_LEN from initrd_utils.py. -/
def cpioHeaderLen : Nat := 110

/-- Lower-case hexadecimal digit character for a value below 16, as
produced by Python's "{value:08x}" format. -/
def hexDigitChar (n : Nat) : Nat := if n < 10 then 48 + n else 87 + n

/-- Big-endian fixed-width hexadecimal rendering of `n` with `w` digits,
matching Python's "{n:0wx}" for `n < 16 ^ w`. -/
def hexChars : Nat → Nat → Bytes
  | 0, _ => []
  | w + 1, n => hexChars w (n / 16) ++ [hexDigitChar (n % 16)]

/-- Eight-digit lower-case hexadecimal rendering, Python's "{n:08x}". -/
def hex8 (n : Nat) : Bytes := hexChars 8 n

/-- Value of one hexadecimal digit character (int accepts both cases). -/
def hexVal (c : Nat) : Option Nat :=
  if 48 ≤ c ∧ c ≤ 57 then some (c - 48)
  else if 97 ≤ c ∧ c ≤ 102 then some (c - 87)
  else if 65 ≤ c ∧ c ≤ 70 then some (c - 55)
  else none

/-- Model of Python `int(s, 16)` on the byte slices taken out of a cpio
newc header.  Any byte that is not a hexadecimal digit makes the call
raise `ValueError`, modelled as `none` (Python additionally tolerates
sign, blanks, underscores and a base marker; none of those shapes can be
produced by an 8-byte header slice of digits, and on a slice holding any
such byte the parse in the source aborts the whole operation exactly as
`none` does here). -/
def parseHexBytes (s : Bytes) : Option Nat :=
  if s = [] then none
  else
    s.foldl
      (fun acc c =>
        match acc, hexVal c with
        | some a, some v => some (16 * a + v)
        | _, _ => none)
      (some 0)

/-- Python `(n + 3) & ~3`: round up to a multiple of four. -/
def align4 (n : Nat) : Nat := ((n + 3) / 4) * 4

/-- Length of the zero padding Python writes after a block of `n` bytes:
`(4 - (n % 4)) % 4`. -/
def padLen (n : Nat) : Nat := (4 - n % 4) % 4

/-- The zero padding itself. -/
def pad4 (n : Nat) : Bytes := List.replicate (padLen n) 0

theorem align4_eq (n : Nat) : align4 n = n + padLen n := by
  unfold align4 padLen; omega

theorem align4_mod4 (n : Nat) : align4 n % 4 = 0 := by
  unfold align4; omega

theorem length_hexChars (w n : Nat) : (hexChars w n).length = w := by
  induction w generalizing n with
  | zero => rfl
  | succ w ih => simp [hexChars, ih]

theorem length_hex8 (n : Nat) : (hex8 n).length = 8 := length_hexChars 8 n

theorem hexVal_hexDigitChar (n : Nat) (h : n < 16) :
    hexVal (hexDigitChar n) = some n := by
  unfold hexVal hexDigitChar
  by_cases h10 : n < 10
  · rw [if_pos h10, if_pos (show 48 ≤ 48 + n ∧ 48 + n ≤ 57 by omega)]
    congr 1
    omega
  · rw [if_neg h10, if_neg (show ¬(48 ≤ 87 + n ∧ 87 + n ≤ 57) by omega),
      if_pos (show 97 ≤ 87 + n ∧ 87 + n ≤ 102 by omega)]
    congr 1
    omega

theorem foldl_hexChars (w n a : Nat) (h : n < 16 ^ w) :
    (hexChars w n).foldl
      (fun acc c =>
        match acc, hexVal c with
        | some x, some v => some (16 * x + v)
        | _, _ => none)
      (some a) = some (a * 16 ^ w + n) := by
  induction w generalizing n a with
  | zero =>
    simp [hexChars]
    omega
  | succ w ih =>
    have hdiv : n / 16 < 16 ^ w := by
      rw [Nat.div_lt_iff_lt_mul (by norm_num)]
      calc n < 16 ^ (w + 1) := h
        _ = 16 ^ w * 16 := by ring
    simp only [hexChars, List.foldl_append, ih (n / 16) a hdiv, List.foldl_cons,
      List.foldl_nil]
    rw [hexVal_hexDigitChar (n % 16) (Nat.mod_lt n (by norm_num))]
    simp only
    congr 1
    have := Nat.div_add_mod n 16
    calc 16 * (a * 16 ^ w + n / 16) + n % 16
        = a * (16 ^ w * 16) + (16 * (n / 16) + n % 16) := by ring
      _ = a * 16 ^ (w + 1) + n := by rw [Nat.pow_succ]; omega

theorem hexChars_ne_nil (n : Nat) : hexChars 8 n ≠ [] := by
  intro h
  have := length_hexChars 8 n
  rw [h] at this
  simp at this

/-- Decoding the canonical lower-case rendering gives back the value. -/
theorem parseHexBytes_hex8 (n : Nat) (h : n < 2 ^ 32) :
    parseHexBytes (hex8 n) = some n := by
  have h16 : n < 16 ^ 8 := by norm_num at h ⊢; omega
  unfold parseHexBytes hex8
  rw [if_neg (hexChars_ne_nil n)]
  have := foldl_hexChars 8 n 0 h16
  simpa using this

/-- Whether a byte is a UTF-8 continuation byte (10xxxxxx). -/
def isCont (c : Nat) : Bool := 128 ≤ c ∧ c ≤ 191

/-- Model of Python `bytes.decode("utf-8", errors="strict")` succeeding:
`True` exactly when the byte sequence is well-formed UTF-8 (continuation
counts, overlong forms, the surrogate gap and the 0x10FFFF ceiling as the
CPython codec checks them).  Entry names are kept as raw bytes in this
development, so only the success of the strict decode is modelled. -/
def utf8Valid : Bytes → Bool
  | [] => true
  | c :: r =>
    if c < 128 then utf8Valid r
    else
      match r with
      | [] => false
      | c1 :: r1 =>
        if 194 ≤ c ∧ c ≤ 223 ∧ isCont c1 then utf8Valid r1
        else
          match r1 with
          | [] => false
          | c2 :: r2 =>
            if (c = 224 ∧ 160 ≤ c1 ∧ c1 ≤ 191 ∧ isCont c2)
                ∨ (225 ≤ c ∧ c ≤ 236 ∧ isCont c1 ∧ isCont c2)
                ∨ (c = 237 ∧ 128 ≤ c1 ∧ c1 ≤ 159 ∧ isCont c2)
                ∨ (238 ≤ c ∧ c ≤ 239 ∧ isCont c1 ∧ isCont c2) then utf8Valid r2
            else
              match r2 with
              | [] => false
              | c3 :: r3 =>
                if (c = 240 ∧ 144 ≤ c1 ∧ c1 ≤ 191 ∧ isCont c2 ∧ isCont c3)
                    ∨ (241 ≤ c ∧ c ≤ 243 ∧ isCont c1 ∧ isCont c2 ∧ isCont c3)
                    ∨ (c = 244 ∧ 128 ≤ c1 ∧ c1 ≤ 143 ∧ isCont c2 ∧ isCont c3)
                then utf8Valid r3
                else false

/-- Whether two leading bytes could open a longer well-formed sequence. -/
def goodLead2 (c c1 : Nat) : Bool :=
  (c = 224 ∧ 160 ≤ c1 ∧ c1 ≤ 191) ∨ (225 ≤ c ∧ c ≤ 236 ∧ isCont c1)
    ∨ (c = 237 ∧ 128 ≤ c1 ∧ c1 ≤ 159) ∨ (238 ≤ c ∧ c ≤ 239 ∧ isCont c1)
    ∨ (c = 240 ∧ 144 ≤ c1 ∧ c1 ≤ 191) ∨ (241 ≤ c ∧ c ≤ 243 ∧ isCont c1)
    ∨ (c = 244 ∧ 128 ≤ c1 ∧ c1 ≤ 143)

/-- Whether three leading bytes could open a four-byte sequence. -/
def goodLead3 (c c1 c2 : Nat) : Bool :=
  ((c = 240 ∧ 144 ≤ c1 ∧ c1 ≤ 191) ∨ (241 ≤ c ∧ c ≤ 243 ∧ isCont c1)
    ∨ (c = 244 ∧ 128 ≤ c1 ∧ c1 ≤ 143)) ∧ isCont c2

/-- Model of Python
`data.decode("utf-8", errors="ignore").encode("utf-8")` as one byte-level
function: well-formed scalar sequences are copied through unchanged (a
UTF-8 round trip is the identity on them) and ill-formed bytes are
dropped, skipping the maximal valid subpart the CPython error handler
consumes.  The source stores the decoded string in the metadata JSON and
re-encodes it when packing, so only this composition is observable.  The
fuel argument only bounds the recursion (every step consumes at least one
byte, so the byte count is always enough fuel). -/
def utf8ReencodeIgnoreAux : Nat → Bytes → Bytes
  | 0, _ => []
  | _, [] => []
  | fuel + 1, c :: r =>
    if c < 128 then c :: utf8ReencodeIgnoreAux fuel r
    else
      match r with
      | [] => []
      | c1 :: r1 =>
        if 194 ≤ c ∧ c ≤ 223 ∧ isCont c1 then
          c :: c1 :: utf8ReencodeIgnoreAux fuel r1
        else
          match r1 with
          | [] => if goodLead2 c c1 then [] else utf8ReencodeIgnoreAux fuel [c1]
          | c2 :: r2 =>
            if (c = 224 ∧ 160 ≤ c1 ∧ c1 ≤ 191 ∧ isCont c2)
                ∨ (225 ≤ c ∧ c ≤ 236 ∧ isCont c1 ∧ isCont c2)
                ∨ (c = 237 ∧ 128 ≤ c1 ∧ c1 ≤ 159 ∧ isCont c2)
                ∨ (238 ≤ c ∧ c ≤ 239 ∧ isCont c1 ∧ isCont c2) then
              c :: c1 :: c2 :: utf8ReencodeIgnoreAux fuel r2
            else
              match r2 with
              | [] =>
                if goodLead3 c c1 c2 then [] else
                if goodLead2 c c1 then utf8ReencodeIgnoreAux fuel [c2]
                else utf8ReencodeIgnoreAux fuel [c1, c2]
              | c3 :: r3 =>
                if (c = 240 ∧ 144 ≤ c1 ∧ c1 ≤ 191 ∧ isCont c2 ∧ isCont c3)
                    ∨ (241 ≤ c ∧ c ≤ 243 ∧ isCont c1 ∧ isCont c2 ∧ isCont c3)
                    ∨ (c = 244 ∧ 128 ≤ c1 ∧ c1 ≤ 143 ∧ isCont c2 ∧ isCont c3)
                then c :: c1 :: c2 :: c3 :: utf8ReencodeIgnoreAux fuel r3
                else if goodLead3 c c1 c2 then utf8ReencodeIgnoreAux fuel (c3 :: r3)
                else if goodLead2 c c1 then utf8ReencodeIgnoreAux fuel (c2 :: c3 :: r3)
                else utf8ReencodeIgnoreAux fuel (c1 :: c2 :: c3 :: r3)

/-- The reencode-with-ignore composition itself. -/
def utf8ReencodeIgnore (l : Bytes) : Bytes := utf8ReencodeIgnoreAux l.length l

theorem utf8Valid_ascii (l : Bytes) (h : ∀ c ∈ l, c < 128) :
    utf8Valid l = true := by
  induction l with
  | nil => rfl
  | cons c r ih =>
    have hc : c < 128 := h c (by simp)
    rw [utf8Valid.eq_def]
    simp only [if_pos hc]
    exact ih fun x hx => h x (by simp [hx])

theorem utf8ReencodeIgnoreAux_ascii (fuel : Nat) (l : Bytes)
    (hf : l.length ≤ fuel) (h : ∀ c ∈ l, c < 128) :
    utf8ReencodeIgnoreAux fuel l = l := by
  induction fuel generalizing l with
  | zero =>
    have : l = [] := List.eq_nil_of_length_eq_zero (Nat.le_zero.1 hf)
    rw [this]
    rfl
  | succ fuel ih =>
    cases l with
    | nil => rfl
    | cons c r =>
      have hc : c < 128 := h c (by simp)
      simp only [utf8ReencodeIgnoreAux, if_pos hc]
      rw [ih r (by simpa using hf) fun x hx => h x (by simp [hx])]

theorem utf8ReencodeIgnore_ascii (l : Bytes) (h : ∀ c ∈ l, c < 128) :
    utf8ReencodeIgnore l = l :=
  utf8ReencodeIgnoreAux_ascii l.length l (Nat.le_refl _) h

/-- ASCII byte of "/". -/
def slashByte : Nat := 47

/-- Split a byte path on "/" into its components (Python `str.split("/")`
and `pathlib.PurePath.parts` for the clean relative names handled here). -/
def splitSlashAux (acc : Bytes) : Bytes → List Bytes
  | [] => [acc.reverse]
  | c :: rest =>
    if c = slashByte then acc.reverse :: splitSlashAux [] rest
    else splitSlashAux (c :: acc) rest

/-- Components of a byte path. -/
def splitSlash (l : Bytes) : List Bytes := splitSlashAux [] l

/-- Join components back with "/". -/
def joinSlash : List Bytes → Bytes
  | [] => []
  | [c] => c
  | c :: rest => c ++ slashByte :: joinSlash rest

/-- Proper ancestor directory paths of a name, shortest first: the paths
`mkdir(parents=True)` creates above the target, and the list
`[Path(*p.parts[:i]) for i in range(1, len(p.parts))]` computed in the
symlink pass of the packer. -/
def ancestorPaths (name : Bytes) : List Bytes :=
  ((List.range (splitSlash name).length).drop 1).map
    fun i => joinSlash ((splitSlash name).take i)

/-- Last path component, Python `Path(name).name` for the clean relative
names handled here. -/
def basenameOf (name : Bytes) : Bytes := (splitSlash name).getLastD []

/-- Python `str.lower` on one ASCII byte. -/
def lowerByte (c : Nat) : Nat := if 65 ≤ c ∧ c ≤ 90 then c + 32 else c

/-- Model of `_should_skip`: the walked path is skipped when its final
component, lower-cased, equals META_FILE (the skip set holds only
META_FILE.lower(), so both disjuncts of the source coincide). -/
def shouldSkip (name : Bytes) : Bool :=
  (basenameOf name).map lowerByte = metaFileBytes

/-- Python `full.as_posix().lstrip("./") or "."`: strip every leading "."
and "/" character, falling back to ".". -/
def relOf (p : Bytes) : Bytes :=
  let s := p.dropWhile fun c => c = 46 ∨ c = slashByte
  if s = [] then dotBytes else s

/-- S_IFDIR. -/
def ifdir : Nat := 0o40000

/-- S_IFLNK. -/
def iflnk : Nat := 0o120000

/-- S_IFREG. -/
def ifreg : Nat := 0o100000

/-- stat.S_ISDIR on the parsed mode field. -/
def isDirMode (m : Nat) : Bool := m &&& 0o170000 = ifdir

/-- stat.S_ISLNK on the parsed mode field. -/
def isLnkMode (m : Nat) : Bool := m &&& 0o170000 = iflnk

/-- stat.S_IMODE: the permission bits of a mode. -/
def imode (m : Nat) : Nat := m &&& 0o7777

/-- One archive member in its canonical newc serialization: the name (raw
bytes), the header fields the format stores, and the member data (file
content for regular files, the link target bytes for symlinks, empty for
directories).  `filesize`, `namesize` and `check` are not stored: the
serializer derives the first two and the newc writer in the source always
emits 0 for `check`. -/
structure Entry where
  name : Bytes
  ino : Nat
  mode : Nat
  uid : Nat
  gid : Nat
  nlink : Nat
  mtime : Nat
  devmajor : Nat
  devminor : Nat
  rdevmajor : Nat
  rdevminor : Nat
  data : Bytes
deriving DecidableEq, Repr

/-- The 110-byte header of an entry, exactly as `write_entry` lays it out:
magic, then ino, mode, uid, gid, nlink, mtime, filesize, devmajor,
devminor, rdevmajor, rdevminor, namesize, check, each as 8 lower-case hex
digits. -/
def headerOf (e : Entry) : Bytes :=
  magicBytes ++ hex8 e.ino ++ hex8 e.mode ++ hex8 e.uid ++ hex8 e.gid
    ++ hex8 e.nlink ++ hex8 e.mtime ++ hex8 e.data.length ++ hex8 e.devmajor
    ++ hex8 e.devminor ++ hex8 e.rdevmajor ++ hex8 e.rdevminor
    ++ hex8 (e.name.length + 1) ++ hex8 0

/-- One serialized member record as `write_entry` emits it: header, the
NUL-terminated name, padding of the header+name block to 4 bytes, the
data, and padding of the data to 4 bytes (for empty data the source skips
both writes, which equals this zero-length rendering). -/
def serializeEntry (e : Entry) : Bytes :=
  headerOf e ++ e.name ++ [0] ++ pad4 (cpioHeaderLen + (e.name.length + 1))
    ++ e.data ++ pad4 e.data.length

/-- The trailer entry: all header fields zero, name "TRAILER!!!", no data;
`serializeEntry` of it is byte-identical to the trailer record the packer
writes. -/
def trailerEntry : Entry :=
  { name := trailerBytes, ino := 0, mode := 0, uid := 0, gid := 0, nlink := 0,
    mtime := 0, devmajor := 0, devminor := 0, rdevmajor := 0, rdevminor := 0,
    data := [] }

/-- A whole canonical archive: the member records in order followed by the
trailer record. -/
def serializeArchive (es : List Entry) : Bytes :=
  (es.map serializeEntry).flatten ++ serializeEntry trailerEntry

/-- One value of the metadata dictionary `_parse_cpio_newc_to_dir` builds:
the thirteen parsed header fields, plus the decoded link target for
symlink entries.  The dictionary is serialized to `.cpio_metadata.json`
and read back by the packer; `json.dumps`/`json.loads` round-trip these
values exactly, so the JSON file itself needs no model. -/
structure MetaEntry where
  ino : Nat
  mode : Nat
  uid : Nat
  gid : Nat
  nlink : Nat
  mtime : Nat
  filesize : Nat
  devmajor : Nat
  devminor : Nat
  rdevmajor : Nat
  rdevminor : Nat
  namesize : Nat
  check : Nat
  symlink : Option Bytes
deriving DecidableEq, Repr

/-- The observable state `_parse_cpio_newc_to_dir` leaves in `dest_dir`:
the directories created (creation order, without duplicates, without the
destination root itself), the regular files written with their content,
and the metadata dictionary in insertion order.  Symlinks exist only in
the metadata;  the parser creates no filesystem node for them. -/
structure UnpackDir where
  dirs : List Bytes
  files : List (Bytes × Bytes)
  meta : List (Bytes × MetaEntry)
deriving DecidableEq, Repr

/-- The empty destination directory. -/
def emptyUnpackDir : UnpackDir := { dirs := [], files := [], meta := [] }

/-- Record a directory if it does not exist yet (mkdir with exist_ok). -/
def addDir (ds : List Bytes) (d : Bytes) : List Bytes :=
  if d ∈ ds then ds else ds ++ [d]

/-- Record several directories in order. -/
def addDirs (ds : List Bytes) : List Bytes → List Bytes
  | [] => ds
  | d :: rest => addDirs (addDir ds d) rest

/-- The directories `target.mkdir(parents=True, exist_ok=True)` creates
for a directory entry named `name`; for "." the target is the destination
root itself and nothing is created. -/
def mkdirTree (ds : List Bytes) (name : Bytes) : List Bytes :=
  if name = dotBytes then ds else addDirs ds (ancestorPaths name ++ [name])

/-- Replace-or-append write of a file (open(.., "wb") keeps the position
of an existing directory listing entry, creates at the end otherwise). -/
def setFile (n v : Bytes) : List (Bytes × Bytes) → List (Bytes × Bytes)
  | [] => [(n, v)]
  | (k, w) :: rest => if k = n then (k, v) :: rest else (k, w) :: setFile n v rest

/-- Python dict assignment: replace in place or append. -/
def setMeta (n : Bytes) (v : MetaEntry) :
    List (Bytes × MetaEntry) → List (Bytes × MetaEntry)
  | [] => [(n, v)]
  | (k, w) :: rest => if k = n then (k, v) :: rest else (k, w) :: setMeta n v rest

/-- Assoc lookup, Python `dict.get`. -/
def lookupMeta (m : List (Bytes × MetaEntry)) (n : Bytes) : Option MetaEntry :=
  match m with
  | [] => none
  | (k, v) :: rest => if k = n then some v else lookupMeta rest n

/-- The thirteen header fields as `_parse_cpio_newc_to_dir` reads them
(the entry dictionary is built eagerly, before the trailer-name check, so
a malformed field aborts even a trailer record).  The source slices
absolutely — `hdr[6:14]`, `hdr[14:22]`, … — which equals the successive
peeling used here: `hdr[6+8i : 14+8i] = ((hdr.drop 6).drop 8·i).take 8`. -/
def parseFields (hdr : Bytes) : Option MetaEntry := do
  let r1 := hdr.drop 6
  let ino ← parseHexBytes (r1.take 8)
  let r2 := r1.drop 8
  let mode ← parseHexBytes (r2.take 8)
  let r3 := r2.drop 8
  let uid ← parseHexBytes (r3.take 8)
  let r4 := r3.drop 8
  let gid ← parseHexBytes (r4.take 8)
  let r5 := r4.drop 8
  let nlink ← parseHexBytes (r5.take 8)
  let r6 := r5.drop 8
  let mtime ← parseHexBytes (r6.take 8)
  let r7 := r6.drop 8
  let filesize ← parseHexBytes (r7.take 8)
  let r8 := r7.drop 8
  let devmajor ← parseHexBytes (r8.take 8)
  let r9 := r8.drop 8
  let devminor ← parseHexBytes (r9.take 8)
  let r10 := r9.drop 8
  let rdevmajor ← parseHexBytes (r10.take 8)
  let r11 := r10.drop 8
  let rdevminor ← parseHexBytes (r11.take 8)
  let r12 := r11.drop 8
  let namesize ← parseHexBytes (r12.take 8)
  let r13 := r12.drop 8
  let check ← parseHexBytes (r13.take 8)
  pure { ino, mode, uid, gid, nlink, mtime, filesize, devmajor, devminor,
         rdevmajor, rdevminor, namesize, check, symlink := none }

/-- The state change one parsed (non-trailer) entry record causes in the
destination directory: a directory entry runs mkdir(parents=True) and is
recorded in the metadata; a symlink entry only stores its decoded target
in the metadata; anything else is written as a regular file after
mkdir(parents=True) on its parent. -/
def applyRecord (st : UnpackDir) (name : Bytes) (fields : MetaEntry) (fileB : Bytes) :
    UnpackDir :=
  if isDirMode fields.mode then
    { st with dirs := mkdirTree st.dirs name, meta := setMeta name fields st.meta }
  else if isLnkMode fields.mode then
    { st with
        meta := setMeta name { fields with symlink := some (utf8ReencodeIgnore fileB) }
          st.meta }
  else
    { st with
        dirs := addDirs st.dirs (ancestorPaths name),
        files := setFile name fileB st.files,
        meta := setMeta name fields st.meta }

/-- The parse loop of `_parse_cpio_newc_to_dir` over the remaining bytes.
The loop exits normally when fewer than 110 bytes remain (`while off <
len(data)` together with the explicit truncated-header `break`) or at the
trailer name; a wrong magic, a non-hex header field, or an entry name that
is not valid UTF-8 raises, which the async wrapper turns into a failed
operation — modelled as `Except.error`.  Offsets are kept relative to the
current record: the source's absolute offset is always a multiple of four,
so its absolute alignments agree with the relative ones used here.
Operating-system failures of the mkdir/open calls themselves are not
modelled (the well-formedness class used in the theorems excludes the
shapes that could trigger them). -/
inductive ParseStep where
  | done
  | fail
  | record (name : Bytes) (fields : MetaEntry) (fileB : Bytes) (next : Nat)
deriving DecidableEq, Repr

/-- One iteration of the parse loop of `_parse_cpio_newc_to_dir` on the
remaining bytes.  The loop exits normally when fewer than 110 bytes remain
(`while off < len(data)` together with the truncated-header `break`) or at
the trailer name (`done`); a wrong magic (or a magic slice that is not
ASCII, which raises in the strict decode before the comparison), a
non-hex header field, or an entry name that is not valid UTF-8 raises
(`fail`); otherwise the iteration yields the entry name, the parsed
fields, the data slice, and the distance to the next record.  Offsets are
kept relative to the current record: the source's absolute offset is
always a multiple of four, so its absolute alignments agree with the
relative ones used here. -/
def parseOne (rem : Bytes) : ParseStep :=
  if rem.length < cpioHeaderLen then ParseStep.done
  else if (rem.take cpioHeaderLen).take 6 ≠ magicBytes then ParseStep.fail
  else
    match parseFields (rem.take cpioHeaderLen) with
    | none => ParseStep.fail
    | some fields =>
      if utf8Valid ((rem.drop cpioHeaderLen).take (fields.namesize - 1)) = false then
        ParseStep.fail
      else if (rem.drop cpioHeaderLen).take (fields.namesize - 1) = trailerBytes then
        ParseStep.done
      else
        ParseStep.record ((rem.drop cpioHeaderLen).take (fields.namesize - 1)) fields
          ((rem.drop (align4 (cpioHeaderLen + fields.namesize))).take fields.filesize)
          (align4 (align4 (cpioHeaderLen + fields.namesize) + fields.filesize))

theorem parseOne_record_next (rem n : Bytes) (f : MetaEntry) (b : Bytes) (k : Nat)
    (hp : parseOne rem = ParseStep.record n f b k) : 110 ≤ k ∧ 110 ≤ rem.length := by
  unfold parseOne at hp
  split at hp
  · exact absurd hp (by simp)
  · split at hp
    · exact absurd hp (by simp)
    · split at hp
      · exact absurd hp (by simp)
      · split at hp
        · exact absurd hp (by simp)
        · split at hp
          · exact absurd hp (by simp)
          · simp only [ParseStep.record.injEq] at hp
            obtain ⟨-, hfeq, -, hk⟩ := hp
            rw [hfeq] at hk
            have h1 := align4_eq (cpioHeaderLen + f.namesize)
            have h2 := align4_eq (align4 (cpioHeaderLen + f.namesize) + f.filesize)
            have hlen : ¬(rem.length < cpioHeaderLen) := by assumption
            simp only [cpioHeaderLen] at h1 h2 hk hlen
            omega

/-- Whole parse loop of `_parse_cpio_newc_to_dir` (fuel-indexed body):
thread the destination state through `parseOne` iterations; a failing
iteration aborts the whole operation.  Each iteration consumes at least
110 bytes, so the remaining byte count always suffices as fuel; at fuel 0
the remainder is empty and the loop exits normally. -/
def parseCpioAux : Nat → Bytes → UnpackDir → Except Unit UnpackDir
  | 0, _, st => Except.ok st
  | fuel + 1, rem, st =>
    match parseOne rem with
    | ParseStep.done => Except.ok st
    | ParseStep.fail => Except.error ()
    | ParseStep.record name fields fileB next =>
      parseCpioAux fuel (rem.drop next) (applyRecord st name fields fileB)

/-- The parse loop of `_parse_cpio_newc_to_dir`.  Operating-system
failures of the mkdir/open calls themselves are not modelled (the
well-formedness class used in the round-trip theorems excludes the shapes
that could trigger them). -/
def parseCpio (rem : Bytes) (st : UnpackDir) : Except Unit UnpackDir :=
  parseCpioAux rem.length rem st

theorem parseOne_nil : parseOne [] = ParseStep.done := rfl

theorem parseCpioAux_irrel (f1 : Nat) :
    ∀ (f2 : Nat) (rem : Bytes) (st : UnpackDir), rem.length ≤ f1 → rem.length ≤ f2 →
      parseCpioAux f1 rem st = parseCpioAux f2 rem st := by
  induction f1 with
  | zero =>
    intro f2 rem st h1 h2
    have hnil : rem = [] := List.eq_nil_of_length_eq_zero (Nat.le_zero.1 h1)
    subst hnil
    cases f2 with
    | zero => rfl
    | succ f2 => simp [parseCpioAux, parseOne_nil]
  | succ f1 ih =>
    intro f2 rem st h1 h2
    cases f2 with
    | zero =>
      have hnil : rem = [] := List.eq_nil_of_length_eq_zero (Nat.le_zero.1 h2)
      subst hnil
      simp [parseCpioAux, parseOne_nil]
    | succ f2 =>
      simp only [parseCpioAux]
      cases hp : parseOne rem with
      | done => rfl
      | fail => rfl
      | record n f b k =>
        have hk := parseOne_record_next rem n f b k hp
        exact ih f2 (rem.drop k) _ (by simp only [List.length_drop]; omega)
          (by simp only [List.length_drop]; omega)

/-- One unfolding of the parse loop. -/
theorem parseCpio_eq (rem : Bytes) (st : UnpackDir) :
    parseCpio rem st
      = match parseOne rem with
        | ParseStep.done => Except.ok st
        | ParseStep.fail => Except.error ()
        | ParseStep.record name fields fileB next =>
          parseCpio (rem.drop next) (applyRecord st name fields fileB) := by
  unfold parseCpio
  cases hl : rem.length with
  | zero =>
    have hnil : rem = [] := List.eq_nil_of_length_eq_zero hl
    subst hnil
    simp [parseCpioAux, parseOne_nil]
  | succ L =>
    simp only [parseCpioAux]
    cases hp : parseOne rem with
    | done => rfl
    | fail => rfl
    | record n f b k =>
      have hk := parseOne_record_next rem n f b k hp
      exact parseCpioAux_irrel L ((rem.drop k).length) (rem.drop k) _
        (by simp only [List.length_drop]; omega) (Nat.le_refl _)

/-- The complete 110-byte header blocks the parse loop examines, in order,
stopping where the loop stops (fuel-indexed body; the remaining byte
count always suffices as fuel). -/
def visitedHeadersAux : Nat → Bytes → List Bytes
  | 0, _ => []
  | fuel + 1, rem =>
    if rem.length < cpioHeaderLen then []
    else
      match parseOne rem with
      | ParseStep.done => [rem.take cpioHeaderLen]
      | ParseStep.fail => [rem.take cpioHeaderLen]
      | ParseStep.record _ _ _ next =>
        rem.take cpioHeaderLen :: visitedHeadersAux fuel (rem.drop next)

/-- The sequence of entry headers of a byte stream as the newc format
lays them out: the headers the parse loop of the source examines. -/
def visitedHeaders (rem : Bytes) : List Bytes := visitedHeadersAux rem.length rem

/-- ASCII bytes of "init". -/
def initBytes : Bytes := [105, 110, 105, 116]

/-- ASCII bytes of "discovery.sh". -/
def discoveryShBytes : Bytes := [100, 105, 115, 99, 111, 118, 101, 114, 121, 46, 115, 104]

/-- ASCII bytes of "bin/". -/
def binSlashBytes : Bytes := [98, 105, 110, 47]

/-- ASCII bytes of "sbin/". -/
def sbinSlashBytes : Bytes := [115, 98, 105, 110, 47]

/-- ASCII bytes of "usr/bin/". -/
def usrBinSlashBytes : Bytes := [117, 115, 114, 47, 98, 105, 110, 47]

/-- ASCII bytes of "usr/sbin/". -/
def usrSbinSlashBytes : Bytes := [117, 115, 114, 47, 115, 98, 105, 110, 47]

/-- ASCII bytes of ".sh". -/
def dotShBytes : Bytes := [46, 115, 104]

/-- ASCII bytes of "#!". -/
def shebangBytes : Bytes := [35, 33]

/-- ASCII bytes of "/sh". -/
def slashShBytes : Bytes := [47, 115, 104]

/-- Python `pat in l` on bytes: contiguous subsequence test. -/
def containsSeq (pat : Bytes) (l : Bytes) : Bool :=
  match l with
  | [] => pat.isPrefixOf []
  | _ :: rest => pat.isPrefixOf l || containsSeq pat rest

/-- Python `data.splitlines()[:1][0]` when `data` starts with "#!": bytes
of the first line (bytes.splitlines splits on LF, CR and CRLF, so the
first line ends at the first byte 10 or 13). -/
def firstLineOf (d : Bytes) : Bytes := d.takeWhile fun c => ¬(c = 10 ∨ c = 13)

/-- Model of `_is_text_shell_script`. -/
def isTextShellScript (name data : Bytes) : Bool :=
  name = initBytes ∨ dotShBytes.isSuffixOf name
    ∨ (shebangBytes.isPrefixOf data ∧ containsSeq slashShBytes (firstLineOf data))

/-- Model of `_to_unix_lf`, Python `data.replace(b"\r\n", b"\n")`: one
left-to-right pass replacing each non-overlapping CRLF pair by LF. -/
def toUnixLf : Bytes → Bytes
  | [] => []
  | [c] => [c]
  | c :: c2 :: rest =>
    if c = 13 ∧ c2 = 10 then 10 :: toUnixLf rest
    else c :: toUnixLf (c2 :: rest)

/-- The name test of `_perm_for` that forces execute permission. -/
def permForced (rel : Bytes) : Bool :=
  rel = initBytes ∨ rel = discoveryShBytes ∨ binSlashBytes.isPrefixOf rel
    ∨ sbinSlashBytes.isPrefixOf rel ∨ usrBinSlashBytes.isPrefixOf rel
    ∨ usrSbinSlashBytes.isPrefixOf rel ∨ dotShBytes.isSuffixOf rel

/-- Model of `_perm_for`: permission bits from the stored mode (or the
type defaults when the metadata dictionary is empty), with 0o111 forced in
for the named system paths when the entry is not a directory. -/
def permFor (rel : Bytes) (isDir isSymlink : Bool) (metaMode : Option Nat) : Nat :=
  let m :=
    match metaMode with
    | some md => imode md
    | none => if isDir then 0o755 else if isSymlink then 0o777 else 0o644
  if permForced rel ∧ ¬isDir then m ||| 0o111 else m

/-- Model of the nested `write_entry` of `_build_cpio_newc_from_dir`,
producing the member it serializes: name (with the `or "."` fallback),
data (link target for symlinks, empty for directories, CRLF-rewritten
content for shell scripts, verbatim content otherwise), mode assembled
from `_perm_for` and the type bit, remaining fields from the metadata
dictionary with the source's defaults (`now` is the `int(time())` the
packer captured). -/
def writeEntry (name diskData : Bytes) (meta : Option MetaEntry)
    (isDir isSymlink : Bool) (now : Nat) : Entry :=
  let name' := if name = [] then dotBytes else name
  let fileBytes :=
    if isSymlink then
      match meta with
      | some m => m.symlink.getD []
      | none => []
    else if isDir then []
    else if isTextShellScript name' diskData then toUnixLf diskData
    else diskData
  let perm := permFor name' isDir isSymlink (meta.map fun m => m.mode)
  let mode := perm ||| (if isDir then ifdir else if isSymlink then iflnk else ifreg)
  { name := name', mode := mode,
    ino := (meta.map fun m => m.ino).getD 0,
    uid := (meta.map fun m => m.uid).getD 0,
    gid := (meta.map fun m => m.gid).getD 0,
    nlink := (meta.map fun m => m.nlink).getD 1,
    mtime := (meta.map fun m => m.mtime).getD now,
    devmajor := (meta.map fun m => m.devmajor).getD 0,
    devminor := (meta.map fun m => m.devminor).getD 0,
    rdevmajor := (meta.map fun m => m.rdevmajor).getD 0,
    rdevminor := (meta.map fun m => m.rdevminor).getD 0,
    data := fileBytes }

/-- The directory pass of the walk loop: emit one entry per directory on
disk that is not skipped and not already written. -/
def emitWalkDirs (meta : List (Bytes × MetaEntry)) (now : Nat) (written : List Bytes) :
    List Bytes → List Entry × List Bytes
  | [] => ([], written)
  | d :: rest =>
    if shouldSkip d then emitWalkDirs meta now written rest
    else
      let rel := relOf d
      if rel ∈ written then emitWalkDirs meta now written rest
      else
        let e := writeEntry rel [] (lookupMeta meta rel) true false now
        let p := emitWalkDirs meta now (written ++ [rel]) rest
        (e :: p.1, p.2)

/-- The file pass of the walk loop. -/
def emitWalkFiles (meta : List (Bytes × MetaEntry)) (now : Nat) (written : List Bytes) :
    List (Bytes × Bytes) → List Entry × List Bytes
  | [] => ([], written)
  | (f, content) :: rest =>
    if shouldSkip f then emitWalkFiles meta now written rest
    else
      let rel := relOf f
      if rel ∈ written then emitWalkFiles meta now written rest
      else
        let m := lookupMeta meta rel
        let isSym := (m.map fun x => x.symlink.isSome).getD false
        let e := writeEntry rel content m false isSym now
        let p := emitWalkFiles meta now (written ++ [rel]) rest
        (e :: p.1, p.2)

/-- Missing parent directories emitted before a metadata-only symlink. -/
def emitParents (meta : List (Bytes × MetaEntry)) (now : Nat) (written : List Bytes) :
    List Bytes → List Entry × List Bytes
  | [] => ([], written)
  | p :: rest =>
    let drel := relOf p
    if drel = dotBytes ∨ drel ∈ written then emitParents meta now written rest
    else
      let e := writeEntry drel [] (lookupMeta meta drel) true false now
      let q := emitParents meta now (written ++ [drel]) rest
      (e :: q.1, q.2)

/-- The final pass over the metadata dictionary emitting the symlinks that
exist only there (the parser creates no filesystem node for them). -/
def emitSymlinks (meta : List (Bytes × MetaEntry)) (now : Nat) (written : List Bytes) :
    List (Bytes × MetaEntry) → List Entry
  | [] => []
  | (rel, m) :: rest =>
    if m.symlink.isNone then emitSymlinks meta now written rest
    else
      let reln := if rel = [] then dotBytes else rel
      if reln ∈ written then emitSymlinks meta now written rest
      else
        let q := emitParents meta now written (ancestorPaths reln)
        q.1 ++ writeEntry reln [] (some m) false true now
          :: emitSymlinks meta now (q.2 ++ [reln]) rest

/-- Model of `_build_cpio_newc_from_dir` at the member level: the "."
entry first, then the walked directories and files, then the
metadata-only symlinks.  (`_select_cpio_root` always returns the unpack
destination itself here because the metadata JSON file guarantees at
least two top-level entries, or a single non-directory one.)  The walk
order of the os.walk call is unspecified by the operating system; the
round-trip statements below compare entry multisets, which this order
cannot affect. -/
def buildEntries (now : Nat) (st : UnpackDir) : List Entry :=
  let dot := writeEntry dotBytes [] (lookupMeta st.meta dotBytes) true false now
  let p1 := emitWalkDirs st.meta now [dotBytes] st.dirs
  let p2 := emitWalkFiles st.meta now p1.2 st.files
  let linksE := emitSymlinks st.meta now p2.2 st.meta
  dot :: (p1.1 ++ p2.1 ++ linksE)

/-- The byte stream `_build_cpio_newc_from_dir` returns: the serialized
members followed by the trailer record. -/
def buildCpio (now : Nat) (st : UnpackDir) : Bytes :=
  ((buildEntries now st).map serializeEntry).flatten ++ serializeEntry trailerEntry

/-- The claim of the round-trip contract at one archive, decidably:
unpack the canonical serialization of `es`, pack the resulting tree, and
compare the multiset of serialized members with the original one. -/
def roundTripOk (now : Nat) (es : List Entry) : Bool :=
  match parseCpio (serializeArchive es) emptyUnpackDir with
  | Except.ok st =>
    decide (List.Perm ((buildEntries now st).map serializeEntry) (es.map serializeEntry))
  | Except.error _ => false

theorem take8_hex8 (v : Nat) (t : Bytes) : (hex8 v ++ t).take 8 = hex8 v := by
  rw [show (8 : Nat) = (hex8 v).length from (length_hex8 v).symm]
  exact List.take_left _ _

theorem drop8_hex8 (v : Nat) (t : Bytes) : (hex8 v ++ t).drop 8 = t := by
  rw [show (8 : Nat) = (hex8 v).length from (length_hex8 v).symm]
  exact List.drop_left _ _

theorem drop6_magic (t : Bytes) : (magicBytes ++ t).drop 6 = t := by
  rw [show (6 : Nat) = magicBytes.length from rfl]
  exact List.drop_left _ _

theorem take6_magic (t : Bytes) : (magicBytes ++ t).take 6 = magicBytes := by
  rw [show (6 : Nat) = magicBytes.length from rfl]
  exact List.take_left _ _

theorem length_headerOf (e : Entry) : (headerOf e).length = 110 := by
  simp [headerOf, length_hex8, magicBytes]

/-- The metadata value the parser stores for one entry record serialized
from `e` (before any symlink adjustment). -/
def metaOf (e : Entry) : MetaEntry :=
  { ino := e.ino, mode := e.mode, uid := e.uid, gid := e.gid, nlink := e.nlink,
    mtime := e.mtime, filesize := e.data.length, devmajor := e.devmajor,
    devminor := e.devminor, rdevmajor := e.rdevmajor, rdevminor := e.rdevminor,
    namesize := e.name.length + 1, check := 0, symlink := none }

/-- All header fields of `e` fit in the 8 hex digits the format stores. -/
def fieldsFit (e : Entry) : Prop :=
  e.ino < 2 ^ 32 ∧ e.mode < 2 ^ 32 ∧ e.uid < 2 ^ 32 ∧ e.gid < 2 ^ 32
    ∧ e.nlink < 2 ^ 32 ∧ e.mtime < 2 ^ 32 ∧ e.data.length < 2 ^ 32
    ∧ e.devmajor < 2 ^ 32 ∧ e.devminor < 2 ^ 32 ∧ e.rdevmajor < 2 ^ 32
    ∧ e.rdevminor < 2 ^ 32 ∧ e.name.length + 1 < 2 ^ 32

instance (e : Entry) : Decidable (fieldsFit e) := by unfold fieldsFit; infer_instance

theorem parseFields_headerOf (e : Entry) (hf : fieldsFit e) :
    parseFields (headerOf e) = some (metaOf e) := by
  obtain ⟨h1, h2, h3, h4, h5, h6, h7, h8, h9, h10, h11, h12⟩ := hf
  have hdr : headerOf e
      = magicBytes ++ (hex8 e.ino ++ (hex8 e.mode ++ (hex8 e.uid ++ (hex8 e.gid
        ++ (hex8 e.nlink ++ (hex8 e.mtime ++ (hex8 e.data.length
        ++ (hex8 e.devmajor ++ (hex8 e.devminor ++ (hex8 e.rdevmajor
        ++ (hex8 e.rdevminor ++ (hex8 (e.name.length + 1) ++ hex8 0)))))))))))) := by
    simp [headerOf, List.append_assoc]
  simp only [parseFields, hdr, drop6_magic, take8_hex8, drop8_hex8,
    parseHexBytes_hex8 e.ino h1, parseHexBytes_hex8 e.mode h2,
    parseHexBytes_hex8 e.uid h3, parseHexBytes_hex8 e.gid h4,
    parseHexBytes_hex8 e.nlink h5, parseHexBytes_hex8 e.mtime h6,
    parseHexBytes_hex8 e.data.length h7, parseHexBytes_hex8 e.devmajor h8,
    parseHexBytes_hex8 e.devminor h9, parseHexBytes_hex8 e.rdevmajor h10,
    parseHexBytes_hex8 e.rdevminor h11, parseHexBytes_hex8 (e.name.length + 1) h12,
    parseHexBytes_hex8 0 (by norm_num), Option.bind_some]
  rfl

theorem drop_len_add (x t : Bytes) (k : Nat) :
    (x ++ t).drop (x.length + k) = t.drop k := by
  induction x with
  | nil => simp
  | cons a x ih =>
    simp only [List.length_cons, List.cons_append]
    rw [show x.length + 1 + k = (x.length + k) + 1 by omega, List.drop_succ_cons]
    exact ih

theorem take_len_prefix (x t : Bytes) : (x ++ t).take x.length = x :=
  List.take_left x t

theorem length_serializeEntry (e : Entry) :
    (serializeEntry e).length
      = 110 + (e.name.length + 1) + padLen (110 + (e.name.length + 1))
        + e.data.length + padLen e.data.length := by
  simp [serializeEntry, length_headerOf, pad4, cpioHeaderLen]
  omega

/-- The facts about one entry that make the parser consume its canonical
record: fields fit in 8 hex digits, the name is non-empty ASCII and not
the trailer name. -/
def recordOk (e : Entry) : Prop :=
  fieldsFit e ∧ e.name ≠ [] ∧ e.name ≠ trailerBytes ∧ ∀ c ∈ e.name, c < 128

/-- The state change of one entry in terms of the entry itself. -/
def applyE (st : UnpackDir) (e : Entry) : UnpackDir :=
  applyRecord st e.name (metaOf e) e.data

/-- Parsing one canonical member record yields exactly its entry data and
steps over exactly its bytes. -/
theorem parseOne_step (e : Entry) (rest : Bytes) (h : recordOk e) :
    parseOne (serializeEntry e ++ rest)
      = ParseStep.record e.name (metaOf e) e.data (serializeEntry e).length := by
  obtain ⟨hf, hne, htr, hascii⟩ := h
  have hlen110 : (headerOf e).length = 110 := length_headerOf e
  have hch : cpioHeaderLen = (headerOf e).length := by rw [hlen110]; rfl
  have hser : serializeEntry e ++ rest
      = headerOf e ++ (e.name ++ ([0] ++ (pad4 (cpioHeaderLen + (e.name.length + 1))
        ++ (e.data ++ (pad4 e.data.length ++ rest))))) := by
    simp [serializeEntry, List.append_assoc, cpioHeaderLen]
  have hlen : ¬((serializeEntry e ++ rest).length < cpioHeaderLen) := by
    rw [hser]
    simp [List.length_append, hlen110, cpioHeaderLen]
  have htake110 : (serializeEntry e ++ rest).take cpioHeaderLen = headerOf e := by
    rw [hser, hch, take_len_prefix]
  have hmagic : (headerOf e).take 6 = magicBytes := by
    have hx : headerOf e = magicBytes ++ (hex8 e.ino ++ (hex8 e.mode ++ (hex8 e.uid
      ++ (hex8 e.gid ++ (hex8 e.nlink ++ (hex8 e.mtime ++ (hex8 e.data.length
      ++ (hex8 e.devmajor ++ (hex8 e.devminor ++ (hex8 e.rdevmajor
      ++ (hex8 e.rdevminor ++ (hex8 (e.name.length + 1) ++ hex8 0)))))))))))) := by
      simp [headerOf, List.append_assoc]
    rw [hx, take6_magic]
  have hdrop110 : (serializeEntry e ++ rest).drop cpioHeaderLen
      = e.name ++ ([0] ++ (pad4 (cpioHeaderLen + (e.name.length + 1))
        ++ (e.data ++ (pad4 e.data.length ++ rest)))) := by
    rw [hser, hch, List.drop_left]
  have hname : ((serializeEntry e ++ rest).drop cpioHeaderLen).take e.name.length
      = e.name := by
    rw [hdrop110]
    exact take_len_prefix _ _
  have hvalid : utf8Valid e.name = true := utf8Valid_ascii e.name hascii
  have hdropFS : (serializeEntry e ++ rest).drop
      (align4 (cpioHeaderLen + (e.name.length + 1)))
      = e.data ++ (pad4 e.data.length ++ rest) := by
    have hsplit : serializeEntry e ++ rest
        = (headerOf e ++ (e.name ++ ([0]
            ++ pad4 (cpioHeaderLen + (e.name.length + 1)))))
          ++ (e.data ++ (pad4 e.data.length ++ rest)) := by
      simp [serializeEntry, List.append_assoc, cpioHeaderLen]
    have hlenpre : (headerOf e ++ (e.name ++ ([0]
        ++ pad4 (cpioHeaderLen + (e.name.length + 1))))).length
        = align4 (cpioHeaderLen + (e.name.length + 1)) := by
      simp only [cpioHeaderLen, align4_eq, List.length_append, hlen110,
        List.length_cons, List.length_nil, pad4, List.length_replicate]
      omega
    rw [hsplit, ← hlenpre, List.drop_left]
  have hfileB : ((serializeEntry e ++ rest).drop
      (align4 (cpioHeaderLen + (e.name.length + 1)))).take e.data.length = e.data := by
    rw [hdropFS]
    exact take_len_prefix _ _
  have hnext : align4 (align4 (cpioHeaderLen + (e.name.length + 1)) + e.data.length)
      = (serializeEntry e).length := by
    rw [length_serializeEntry]
    have h0 := align4_mod4 (cpioHeaderLen + (e.name.length + 1))
    have h1 := align4_eq (cpioHeaderLen + (e.name.length + 1))
    have h2 := align4_eq (align4 (cpioHeaderLen + (e.name.length + 1)) + e.data.length)
    simp only [cpioHeaderLen] at h0 h1 h2 ⊢
    unfold padLen at h1 h2 ⊢
    omega
  unfold parseOne
  rw [if_neg hlen, htake110, hmagic, parseFields_headerOf e hf]
  have hnsz : (metaOf e).namesize - 1 = e.name.length := by
    simp [metaOf]
  simp only [ne_eq, not_true_eq_false, if_false, hnsz, hname, hvalid,
    Bool.true_eq_false, if_neg htr]
  have hnsz2 : (metaOf e).namesize = e.name.length + 1 := rfl
  have hfsz : (metaOf e).filesize = e.data.length := rfl
  rw [hnsz2, hfsz, hfileB, hnext]

/-- Lifting `parseOne_step` through the loop. -/
theorem parseCpio_step (e : Entry) (rest : Bytes) (st : UnpackDir) (h : recordOk e) :
    parseCpio (serializeEntry e ++ rest) st = parseCpio rest (applyE st e) := by
  have hp := parseOne_step e rest h
  rw [parseCpio_eq]
  split
  · rename_i hd
    rw [hp] at hd
    exact absurd hd (by simp)
  · rename_i hd
    rw [hp] at hd
    exact absurd hd (by simp)
  · rename_i nm flds fb nxt hr
    rw [hp] at hr
    simp only [ParseStep.record.injEq] at hr
    obtain ⟨h1, h2, h3, h4⟩ := hr
    subst h1
    subst h2
    subst h3
    subst h4
    rw [List.drop_left]
    rfl

set_option maxRecDepth 4000 in
/-- The trailer record ends the parse with the accumulated state. -/
theorem parseCpio_trailer (st : UnpackDir) :
    parseCpio (serializeEntry trailerEntry) st = Except.ok st := by
  have hp : parseOne (serializeEntry trailerEntry) = ParseStep.done := by decide
  rw [parseCpio_eq]
  split
  · rfl
  · rename_i hd
    rw [hp] at hd
    exact absurd hd (by simp)
  · rename_i nm flds fb nxt hr
    rw [hp] at hr
    exact absurd hr (by simp)

/-- Parsing a whole canonical archive folds the entries into the state. -/
theorem parseCpio_archive (es : List Entry) (st : UnpackDir)
    (h : ∀ e ∈ es, recordOk e) :
    parseCpio (serializeArchive es) st = Except.ok (es.foldl applyE st) := by
  induction es generalizing st with
  | nil =>
    rw [show serializeArchive [] = serializeEntry trailerEntry from by
      simp [serializeArchive]]
    exact parseCpio_trailer st
  | cons e es ih =>
    have hsplit : serializeArchive (e :: es) = serializeEntry e ++ serializeArchive es := by
      simp [serializeArchive, List.append_assoc]
    rw [hsplit, parseCpio_step e _ st (h e (by simp)),
      ih _ fun x hx => h x (by simp [hx])]
    rfl

/-- The metadata value an entry of `e` ends up with after the parse
(symlink entries additionally store their decoded target). -/
def metaFinal (e : Entry) : MetaEntry :=
  if isDirMode e.mode then metaOf e
  else if isLnkMode e.mode then
    { metaOf e with symlink := some (utf8ReencodeIgnore e.data) }
  else metaOf e

/-- The parser's else-branch: treated as a regular file. -/
def isRegMode (m : Nat) : Bool := ¬isDirMode m ∧ ¬isLnkMode m

/-- Directories an entry contributes to the destination tree. -/
def dirContrib (e : Entry) : List Bytes :=
  if isDirMode e.mode then
    (if e.name = dotBytes then [] else ancestorPaths e.name ++ [e.name])
  else if isLnkMode e.mode then []
  else ancestorPaths e.name

theorem applyE_meta (st : UnpackDir) (e : Entry) :
    (applyE st e).meta = setMeta e.name (metaFinal e) st.meta := by
  unfold applyE applyRecord metaFinal
  have hm : (metaOf e).mode = e.mode := rfl
  split_ifs with h1 h2 <;> simp_all [hm]

theorem applyE_files (st : UnpackDir) (e : Entry) :
    (applyE st e).files
      = if isRegMode e.mode then setFile e.name e.data st.files else st.files := by
  unfold applyE applyRecord isRegMode
  have hm : (metaOf e).mode = e.mode := rfl
  split_ifs with h1 h2 <;> simp_all [hm]

theorem applyE_dirs (st : UnpackDir) (e : Entry) :
    (applyE st e).dirs = addDirs st.dirs (dirContrib e) := by
  unfold applyE applyRecord dirContrib mkdirTree
  have hm : (metaOf e).mode = e.mode := rfl
  split_ifs with h1 h2 <;> simp_all [hm, addDirs]

theorem setMeta_fresh (n : Bytes) (v : MetaEntry) (m : List (Bytes × MetaEntry))
    (h : ∀ kv ∈ m, kv.1 ≠ n) : setMeta n v m = m ++ [(n, v)] := by
  induction m with
  | nil => rfl
  | cons kv rest ih =>
    have hk : kv.1 ≠ n := h kv (by simp)
    cases kv with
    | mk k w =>
      simp only [setMeta, if_neg hk, List.cons_append, List.cons.injEq, true_and]
      exact ih fun x hx => h x (by simp [hx])

theorem setFile_fresh (n v : Bytes) (m : List (Bytes × Bytes))
    (h : ∀ kv ∈ m, kv.1 ≠ n) : setFile n v m = m ++ [(n, v)] := by
  induction m with
  | nil => rfl
  | cons kv rest ih =>
    have hk : kv.1 ≠ n := h kv (by simp)
    cases kv with
    | mk k w =>
      simp only [setFile, if_neg hk, List.cons_append, List.cons.injEq, true_and]
      exact ih fun x hx => h x (by simp [hx])

theorem foldE_meta (es : List Entry) (st : UnpackDir)
    (hnodup : (es.map Entry.name).Nodup)
    (hfresh : ∀ e ∈ es, ∀ kv ∈ st.meta, kv.1 ≠ e.name) :
    (es.foldl applyE st).meta
      = st.meta ++ es.map fun e => (e.name, metaFinal e) := by
  induction es generalizing st with
  | nil => simp
  | cons e es ih =>
    simp only [List.foldl_cons, List.map_cons]
    have hstep : (applyE st e).meta = st.meta ++ [(e.name, metaFinal e)] := by
      rw [applyE_meta, setMeta_fresh _ _ _ (hfresh e (by simp))]
    have hmono : ∀ x ∈ es, ∀ kv ∈ (applyE st e).meta, kv.1 ≠ x.name := by
      intro x hx kv hkv
      rw [hstep] at hkv
      rcases List.mem_append.1 hkv with hin | hin
      · exact hfresh x (by simp [hx]) kv hin
      · simp only [List.mem_singleton] at hin
        subst hin
        show e.name ≠ x.name
        simp only [List.map_cons, List.nodup_cons] at hnodup
        intro hcontra
        exact hnodup.1 (hcontra ▸ List.mem_map_of_mem Entry.name hx)
    rw [ih (applyE st e) (by simp_all [List.nodup_cons]) hmono, hstep]
    simp

theorem foldE_files (es : List Entry) (st : UnpackDir)
    (hnodup : (es.map Entry.name).Nodup)
    (hfresh : ∀ e ∈ es, ∀ kv ∈ st.files, kv.1 ≠ e.name) :
    (es.foldl applyE st).files
      = st.files
        ++ (es.filter fun e => isRegMode e.mode).map fun e => (e.name, e.data) := by
  induction es generalizing st with
  | nil => simp
  | cons e es ih =>
    simp only [List.foldl_cons]
    have hmeta : (applyE st e).files
        = if isRegMode e.mode then st.files ++ [(e.name, e.data)] else st.files := by
      rw [applyE_files]
      split_ifs with h
      · exact setFile_fresh _ _ _ (hfresh e (by simp))
      · rfl
    have hnodup' : (es.map Entry.name).Nodup := by
      simp only [List.map_cons, List.nodup_cons] at hnodup
      exact hnodup.2
    have hnotin : ∀ x ∈ es, x.name ≠ e.name := by
      intro x hx
      simp only [List.map_cons, List.nodup_cons] at hnodup
      intro hcontra
      exact hnodup.1 (hcontra ▸ List.mem_map_of_mem Entry.name hx)
    have hmono : ∀ x ∈ es, ∀ kv ∈ (applyE st e).files, kv.1 ≠ x.name := by
      intro x hx kv hkv
      rw [hmeta] at hkv
      split_ifs at hkv with hreg
      · rcases List.mem_append.1 hkv with hin | hin
        · exact hfresh x (by simp [hx]) kv hin
        · simp only [List.mem_singleton] at hin
          subst hin
          show e.name ≠ x.name
          exact fun hc => hnotin x hx hc.symm
      · exact hfresh x (by simp [hx]) kv hkv
    rw [ih (applyE st e) hnodup' hmono, hmeta]
    by_cases hreg : isRegMode e.mode
    · simp [hreg, List.filter_cons, List.append_assoc]
    · simp [hreg, List.filter_cons]

theorem addDir_mem (ds : List Bytes) (d x : Bytes) :
    x ∈ addDir ds d ↔ x ∈ ds ∨ x = d := by
  unfold addDir
  split_ifs with h
  · constructor
    · exact Or.inl
    · rintro (hx | rfl)
      · exact hx
      · exact h
  · simp

theorem addDirs_mem (L : List Bytes) (ds : List Bytes) (x : Bytes) :
    x ∈ addDirs ds L ↔ x ∈ ds ∨ x ∈ L := by
  induction L generalizing ds with
  | nil => simp [addDirs]
  | cons d L ih =>
    simp only [addDirs, ih, addDir_mem, List.mem_cons]
    tauto

theorem addDir_nodup (ds : List Bytes) (d : Bytes) (h : ds.Nodup) :
    (addDir ds d).Nodup := by
  unfold addDir
  split_ifs with hmem
  · exact h
  · simp [List.nodup_append, h, hmem]

theorem addDirs_nodup (L : List Bytes) (ds : List Bytes) (h : ds.Nodup) :
    (addDirs ds L).Nodup := by
  induction L generalizing ds with
  | nil => exact h
  | cons d L ih => exact ih _ (addDir_nodup _ _ h)

theorem foldE_dirs_mem (es : List Entry) (st : UnpackDir) (x : Bytes) :
    x ∈ (es.foldl applyE st).dirs
      ↔ x ∈ st.dirs ∨ ∃ e ∈ es, x ∈ dirContrib e := by
  induction es generalizing st with
  | nil => simp
  | cons e es ih =>
    simp only [List.foldl_cons, ih, applyE_dirs, addDirs_mem, List.mem_cons]
    constructor
    · rintro ((h | h) | ⟨e', he', hx⟩)
      · exact Or.inl h
      · exact Or.inr ⟨e, Or.inl rfl, h⟩
      · exact Or.inr ⟨e', Or.inr he', hx⟩
    · rintro (h | ⟨e', (rfl | he'), hx⟩)
      · exact Or.inl (Or.inl h)
      · exact Or.inl (Or.inr hx)
      · exact Or.inr ⟨e', he', hx⟩

theorem foldE_dirs_nodup (es : List Entry) (st : UnpackDir) (h : st.dirs.Nodup) :
    (es.foldl applyE st).dirs.Nodup := by
  induction es generalizing st with
  | nil => exact h
  | cons e es ih =>
    simp only [List.foldl_cons]
    exact ih _ (by rw [applyE_dirs]; exact addDirs_nodup _ _ h)

/-- Clean entry names: non-empty printable ASCII, no leading "." or "/",
no empty, "." or ".." components, not the trailer name, and a final
component that survives `_should_skip`.  These are the names for which the
pathlib round trip through the filesystem is the identity. -/
def nameOk (n : Bytes) : Prop :=
  n ≠ [] ∧ n ≠ trailerBytes ∧ (∀ c ∈ n, 1 ≤ c ∧ c ≤ 126)
    ∧ n.headD 0 ≠ 46 ∧ n.headD 0 ≠ 47
    ∧ (∀ comp ∈ splitSlash n, comp ≠ [] ∧ comp ≠ dotBytes ∧ comp ≠ [46, 46])
    ∧ ¬(shouldSkip n = true)

instance (n : Bytes) : Decidable (nameOk n) := by unfold nameOk; infer_instance

/-- A well-formed non-"." member: clean name, fields in range, a mode that
is exactly one type bit plus permission bits, permission bits fixed under
the packer's `_perm_for` policy, and data the packer reproduces (no data
for directories, ASCII target for symlinks, CRLF-free content for files
the packer classifies as shell scripts). -/
def wfEntry (e : Entry) : Prop :=
  nameOk e.name ∧ fieldsFit e
    ∧ e.mode = (e.mode &&& 0o170000) ||| (e.mode &&& 0o7777)
    ∧ (if isDirMode e.mode then
        e.data = [] ∧ permFor e.name true false (some e.mode) = imode e.mode
      else if isLnkMode e.mode then
        (∀ c ∈ e.data, c < 128) ∧ permFor e.name false true (some e.mode) = imode e.mode
      else
        e.mode &&& 0o170000 = ifreg
          ∧ (isTextShellScript e.name e.data = true → toUnixLf e.data = e.data)
          ∧ permFor e.name false false (some e.mode) = imode e.mode)

instance (e : Entry) : Decidable (wfEntry e) := by unfold wfEntry; infer_instance

/-- The well-formed "." member: a directory whose permission bits are
fixed under the policy. -/
def wfDotEntry (e : Entry) : Prop :=
  e.name = dotBytes ∧ fieldsFit e
    ∧ e.mode = (e.mode &&& 0o170000) ||| (e.mode &&& 0o7777)
    ∧ isDirMode e.mode = true ∧ e.data = []
    ∧ permFor dotBytes true false (some e.mode) = imode e.mode

instance (e : Entry) : Decidable (wfDotEntry e) := by unfold wfDotEntry; infer_instance

/-- A well-formed archive: distinct names, exactly one "." directory
entry, every member well-formed, and every name's proper ancestors
present as directory entries of the archive. -/
def wfArchive (es : List Entry) : Prop :=
  (es.map Entry.name).Nodup
    ∧ es.countP (fun e => e.name = dotBytes) = 1
    ∧ (∀ e ∈ es, if e.name = dotBytes then wfDotEntry e else wfEntry e)
    ∧ ∀ e ∈ es, ∀ p ∈ ancestorPaths e.name,
        p ≠ dotBytes ∧ ∃ d ∈ es, d.name = p ∧ isDirMode d.mode = true

instance (es : List Entry) : Decidable (wfArchive es) := by
  unfold wfArchive
  infer_instance

theorem wfEntry_recordOk (e : Entry) (h : wfEntry e) : recordOk e := by
  obtain ⟨⟨hne, htr, hascii, -⟩, hf, -⟩ := h
  exact ⟨hf, hne, htr, fun c hc => by have := hascii c hc; omega⟩

theorem wfDotEntry_recordOk (e : Entry) (h : wfDotEntry e) : recordOk e := by
  obtain ⟨hname, hf, -⟩ := h
  refine ⟨hf, ?_, ?_, ?_⟩
  · rw [hname]; simp [dotBytes]
  · rw [hname]; simp [dotBytes, trailerBytes]
  · intro c hc
    rw [hname] at hc
    simp [dotBytes] at hc
    omega

theorem relOf_eq_self (n : Bytes) (hne : n ≠ []) (h46 : n.headD 0 ≠ 46)
    (h47 : n.headD 0 ≠ 47) : relOf n = n := by
  cases n with
  | nil => exact absurd rfl hne
  | cons c r =>
    simp only [List.headD_cons] at h46 h47
    unfold relOf
    rw [List.dropWhile_cons_of_neg (by simp [h46, h47, slashByte])]
    simp

/-- mode reconstruction: permission bits or-ed with the type bit give back
the stored mode. -/
theorem mode_rebuild (m typeBit : Nat) (hsplit : m = (m &&& 0o170000) ||| (m &&& 0o7777))
    (hmask : m &&& 0o170000 = typeBit) (p : Nat) (hp : p = m &&& 0o7777) :
    p ||| typeBit = m := by
  rw [hp, ← hmask, Nat.lor_comm, ← hsplit]

theorem lookupMeta_map_of_mem (es : List Entry) (e : Entry) (he : e ∈ es)
    (hnodup : (es.map Entry.name).Nodup) :
    lookupMeta (es.map fun x => (x.name, metaFinal x)) e.name = some (metaFinal e) := by
  induction es with
  | nil => cases he
  | cons x xs ih =>
    simp only [List.map_cons, List.nodup_cons] at hnodup
    rcases List.mem_cons.1 he with rfl | hin
    · simp [lookupMeta]
    · have hx : x.name ≠ e.name := by
        intro hcontra
        exact hnodup.1 (hcontra ▸ List.mem_map_of_mem Entry.name hin)
      simp only [List.map_cons, lookupMeta, if_neg hx]
      exact ih hin hnodup.2

theorem writeEntry_dir_eq (e : Entry) (now : Nat) (hne : e.name ≠ [])
    (hsplit : e.mode = (e.mode &&& 0o170000) ||| (e.mode &&& 0o7777))
    (hdir : isDirMode e.mode = true) (hdata : e.data = [])
    (hperm : permFor e.name true false (some e.mode) = imode e.mode) :
    writeEntry e.name [] (some (metaFinal e)) true false now = e := by
  have hmask : e.mode &&& 0o170000 = ifdir := by simpa [isDirMode] using hdir
  have hmf : metaFinal e = metaOf e := by unfold metaFinal; rw [if_pos hdir]
  have hmode : permFor e.name true false (some e.mode) ||| ifdir = e.mode :=
    mode_rebuild e.mode ifdir hsplit hmask _ hperm
  rw [hmf]
  unfold writeEntry
  simp only [if_neg hne]
  cases e with
  | mk nm ino mode uid gid nlink mtime dma dmi rma rmi data =>
    simp only [Entry.mk.injEq, true_and, and_true]
    exact ⟨rfl, hmode, rfl, rfl, rfl, rfl, rfl, rfl, rfl, rfl, hdata.symm⟩

theorem writeEntry_reg_eq (e : Entry) (now : Nat) (hne : e.name ≠ [])
    (hsplit : e.mode = (e.mode &&& 0o170000) ||| (e.mode &&& 0o7777))
    (hmask : e.mode &&& 0o170000 = ifreg)
    (hscript : isTextShellScript e.name e.data = true → toUnixLf e.data = e.data)
    (hperm : permFor e.name false false (some e.mode) = imode e.mode)
    (hndir : isDirMode e.mode = false) (hnlnk : isLnkMode e.mode = false) :
    writeEntry e.name e.data (some (metaFinal e)) false false now = e := by
  have hmf : metaFinal e = metaOf e := by
    unfold metaFinal
    rw [if_neg (by simp [hndir]), if_neg (by simp [hnlnk])]
  have hmode : permFor e.name false false (some e.mode) ||| ifreg = e.mode :=
    mode_rebuild e.mode ifreg hsplit hmask _ hperm
  have hbytes : (if isTextShellScript e.name e.data = true then toUnixLf e.data
      else e.data) = e.data := by
    split_ifs with h
    · exact hscript h
    · rfl
  rw [hmf]
  unfold writeEntry
  simp only [if_neg hne]
  cases e with
  | mk nm ino mode uid gid nlink mtime dma dmi rma rmi data =>
    simp only [Entry.mk.injEq, true_and, and_true]
    exact ⟨rfl, hmode, rfl, rfl, rfl, rfl, rfl, rfl, rfl, rfl, hbytes⟩

theorem writeEntry_lnk_eq (e : Entry) (now : Nat) (hne : e.name ≠ [])
    (hsplit : e.mode = (e.mode &&& 0o170000) ||| (e.mode &&& 0o7777))
    (hlnk : isLnkMode e.mode = true) (hndir : isDirMode e.mode = false)
    (hascii : ∀ c ∈ e.data, c < 128)
    (hperm : permFor e.name false true (some e.mode) = imode e.mode) :
    writeEntry e.name [] (some (metaFinal e)) false true now = e := by
  have hmask : e.mode &&& 0o170000 = iflnk := by simpa [isLnkMode] using hlnk
  have hmf : metaFinal e = { metaOf e with symlink := some e.data } := by
    unfold metaFinal
    rw [if_neg (by simp [hndir]), if_pos hlnk, utf8ReencodeIgnore_ascii e.data hascii]
  have hmode : permFor e.name false true (some e.mode) ||| iflnk = e.mode :=
    mode_rebuild e.mode iflnk hsplit hmask _ hperm
  rw [hmf]
  unfold writeEntry
  simp only [if_neg hne]
  cases e with
  | mk nm ino mode uid gid nlink mtime dma dmi rma rmi data =>
    simp only [Entry.mk.injEq, true_and, and_true]
    exact ⟨rfl, hmode, rfl, rfl, rfl, rfl, rfl, rfl, rfl, rfl, rfl⟩

theorem emitWalkDirs_map (meta : List (Bytes × MetaEntry)) (now : Nat)
    (written : List Bytes) (ds : List Bytes) (hnodup : ds.Nodup)
    (hok : ∀ d ∈ ds, ¬shouldSkip d = true ∧ relOf d = d ∧ d ∉ written) :
    emitWalkDirs meta now written ds
      = (ds.map fun d => writeEntry d [] (lookupMeta meta d) true false now,
         written ++ ds) := by
  induction ds generalizing written with
  | nil => simp [emitWalkDirs]
  | cons d rest ih =>
    obtain ⟨hskip, hrel, hmem⟩ := hok d (by simp)
    simp only [List.nodup_cons] at hnodup
    have hok' : ∀ x ∈ rest, ¬shouldSkip x = true ∧ relOf x = x ∧ x ∉ written ++ [d] := by
      intro x hx
      obtain ⟨h1, h2, h3⟩ := hok x (by simp [hx])
      refine ⟨h1, h2, ?_⟩
      simp only [List.mem_append, List.mem_singleton]
      rintro (hc | rfl)
      · exact h3 hc
      · exact hnodup.1 hx
    simp only [emitWalkDirs, if_neg hskip, hrel, if_neg hmem,
      ih (written ++ [d]) hnodup.2 hok']
    simp [List.append_assoc]

theorem emitWalkFiles_map (meta : List (Bytes × MetaEntry)) (now : Nat)
    (written : List Bytes) (fs : List (Bytes × Bytes))
    (hnodup : (fs.map Prod.fst).Nodup)
    (hok : ∀ x ∈ fs, ¬shouldSkip x.1 = true ∧ relOf x.1 = x.1 ∧ x.1 ∉ written) :
    emitWalkFiles meta now written fs
      = (fs.map fun x => writeEntry x.1 x.2 (lookupMeta meta x.1) false
          (((lookupMeta meta x.1).map fun m => m.symlink.isSome).getD false) now,
         written ++ fs.map Prod.fst) := by
  induction fs generalizing written with
  | nil => simp [emitWalkFiles]
  | cons fc rest ih =>
    obtain ⟨hskip, hrel, hmem⟩ := hok fc (by simp)
    simp only [List.map_cons, List.nodup_cons] at hnodup
    have hok' : ∀ x ∈ rest, ¬shouldSkip x.1 = true ∧ relOf x.1 = x.1
        ∧ x.1 ∉ written ++ [fc.1] := by
      intro x hx
      obtain ⟨h1, h2, h3⟩ := hok x (by simp [hx])
      refine ⟨h1, h2, ?_⟩
      simp only [List.mem_append, List.mem_singleton]
      rintro (hc | hc)
      · exact h3 hc
      · exact hnodup.1 (hc ▸ List.mem_map_of_mem Prod.fst hx)
    cases fc with
    | mk n c =>
      simp only [emitWalkFiles, if_neg hskip, hrel, if_neg hmem,
        ih (written ++ [n]) hnodup.2 hok']
      simp [List.append_assoc]

theorem emitParents_skip (meta : List (Bytes × MetaEntry)) (now : Nat)
    (written : List Bytes) (ps : List Bytes)
    (hok : ∀ p ∈ ps, relOf p = p ∧ (p = dotBytes ∨ p ∈ written)) :
    emitParents meta now written ps = ([], written) := by
  induction ps with
  | nil => rfl
  | cons p rest ih =>
    obtain ⟨hrel, hp⟩ := hok p (by simp)
    have : relOf p = dotBytes ∨ relOf p ∈ written := by rw [hrel]; exact hp
    simp only [emitParents, if_pos this]
    exact ih fun x hx => hok x (by simp [hx])

set_option maxHeartbeats 1600000 in
theorem emitSymlinks_map (meta : List (Bytes × MetaEntry)) (now : Nat)
    (written : List Bytes) (ms : List (Bytes × MetaEntry))
    (hnodup : (ms.map Prod.fst).Nodup)
    (hok : ∀ x ∈ ms, x.2.symlink.isSome = true →
      x.1 ≠ [] ∧ x.1 ∉ written
        ∧ ∀ p ∈ ancestorPaths x.1, relOf p = p ∧ (p = dotBytes ∨ p ∈ written)) :
    emitSymlinks meta now written ms
      = (ms.filter fun x => x.2.symlink.isSome).map
          fun x => writeEntry x.1 [] (some x.2) false true now := by
  induction ms generalizing written with
  | nil => rfl
  | cons rm rest ih =>
    simp only [List.map_cons, List.nodup_cons] at hnodup
    cases rm with
    | mk rel m =>
      by_cases hsym : m.symlink.isSome = true
      · obtain ⟨hne, hmem, hanc⟩ := hok (rel, m) (by simp) hsym
        have hnone : m.symlink.isNone = false := by
          cases hs : m.symlink with
          | none => rw [hs] at hsym; simp at hsym
          | some v => rfl
        have hreln : (if rel = [] then dotBytes else rel) = rel := if_neg hne
        have hok' : ∀ x ∈ rest, x.2.symlink.isSome = true →
            x.1 ≠ [] ∧ x.1 ∉ written ++ [rel]
              ∧ ∀ p ∈ ancestorPaths x.1, relOf p = p
                  ∧ (p = dotBytes ∨ p ∈ written ++ [rel]) := by
          intro x hx hxs
          obtain ⟨h1, h2, h3⟩ := hok x (by simp [hx]) hxs
          refine ⟨h1, ?_, ?_⟩
          · simp only [List.mem_append, List.mem_singleton]
            rintro (hc | hc)
            · exact h2 hc
            · have hmm := List.mem_map_of_mem Prod.fst hx
              rw [hc] at hmm
              exact hnodup.1 hmm
          · intro p hp
            obtain ⟨hr, hd⟩ := h3 p hp
            refine ⟨hr, ?_⟩
            rcases hd with hd | hd
            · exact Or.inl hd
            · exact Or.inr (by simp [hd])
        simp only [emitSymlinks, hnone, Bool.false_eq_true, if_false, hreln,
          if_neg hmem, emitParents_skip meta now written _ hanc,
          ih (written ++ [rel]) hnodup.2 hok']
        simp [List.filter_cons, hsym]
      · have hnone : m.symlink.isNone = true := by
          cases hs : m.symlink with
          | none => rfl
          | some v => rw [hs] at hsym; simp at hsym
        have hok' : ∀ x ∈ rest, x.2.symlink.isSome = true →
            x.1 ≠ [] ∧ x.1 ∉ written
              ∧ ∀ p ∈ ancestorPaths x.1, relOf p = p ∧ (p = dotBytes ∨ p ∈ written) :=
          fun x hx hxs => hok x (by simp [hx]) hxs
        simp only [emitSymlinks, hnone, if_true, ih written hnodup.2 hok']
        simp [List.filter_cons, hsym]

/-- The four classes the packer emits: the "." entry, other directories,
regular files, symlinks. -/
def pDot (e : Entry) : Bool := e.name = dotBytes

/-- Non-"." directory entries. -/
def pDir (e : Entry) : Bool := !pDot e && isDirMode e.mode

/-- Regular-file entries (the parser's else branch). -/
def pReg (e : Entry) : Bool := isRegMode e.mode

/-- Symlink entries. -/
def pLnk (e : Entry) : Bool := !isDirMode e.mode && isLnkMode e.mode

theorem isLnkMode_false_of_dir (m : Nat) (h : isDirMode m = true) :
    isLnkMode m = false := by
  simp only [isDirMode, decide_eq_true_eq] at h
  simp [isLnkMode, h, ifdir, iflnk]

theorem isDirMode_false_of_reg (m : Nat) (h : m &&& 0o170000 = ifreg) :
    isDirMode m = false := by
  simp [isDirMode, h, ifdir, ifreg]

theorem isLnkMode_false_of_reg (m : Nat) (h : m &&& 0o170000 = ifreg) :
    isLnkMode m = false := by
  simp [isLnkMode, h, iflnk, ifreg]

theorem perm_partition4 (l : List Entry) (p q r s : Entry → Bool)
    (h : ∀ x ∈ l, (p x = true ∧ q x = false ∧ r x = false ∧ s x = false)
      ∨ (p x = false ∧ q x = true ∧ r x = false ∧ s x = false)
      ∨ (p x = false ∧ q x = false ∧ r x = true ∧ s x = false)
      ∨ (p x = false ∧ q x = false ∧ r x = false ∧ s x = true)) :
    List.Perm l (l.filter p ++ (l.filter q ++ (l.filter r ++ l.filter s))) := by
  induction l with
  | nil => simp
  | cons x t ih =>
    have iht := ih fun y hy => h y (by simp [hy])
    rcases h x (by simp) with ⟨h1, h2, h3, h4⟩ | ⟨h1, h2, h3, h4⟩
      | ⟨h1, h2, h3, h4⟩ | ⟨h1, h2, h3, h4⟩ <;>
      simp only [List.filter_cons, h1, h2, h3, h4, if_true, if_false,
        Bool.false_eq_true, Bool.true_eq_false]
    · exact iht.cons x
    · exact (iht.cons x).trans List.perm_middle.symm
    · exact (iht.cons x).trans
        (List.perm_middle.symm.trans
          (List.Perm.append_left (t.filter p) List.perm_middle.symm))
    · exact (iht.cons x).trans
        (List.perm_middle.symm.trans
          (List.Perm.append_left (t.filter p)
            (List.perm_middle.symm.trans
              (List.Perm.append_left (t.filter q) List.perm_middle.symm))))

set_option maxHeartbeats 1600000 in
/-- Under the archive well-formedness conditions, packing the unpacked
tree emits exactly the original members, up to the walk order. -/
theorem buildEntries_perm (es : List Entry) (now : Nat) (h : wfArchive es) :
    List.Perm (buildEntries now (es.foldl applyE emptyUnpackDir)) es := by
  obtain ⟨hnodup, hdot1, hwf, hpar⟩ := h
  have hwfE : ∀ e ∈ es, e.name ≠ dotBytes → wfEntry e := by
    intro e he hne
    have hx := hwf e he
    rwa [if_neg hne] at hx
  have hwfD : ∀ e ∈ es, e.name = dotBytes → wfDotEntry e := by
    intro e he hne
    have hx := hwf e he
    rwa [if_pos hne] at hx
  have hfilter1 : (es.filter pDot).length = 1 := by
    rw [← List.countP_eq_length_filter]
    exact hdot1
  obtain ⟨dotE, hdotE⟩ := List.length_eq_one.1 hfilter1
  have hdotMemF : dotE ∈ es.filter pDot := by rw [hdotE]; simp
  have hdotMem : dotE ∈ es := List.mem_of_mem_filter hdotMemF
  have hdotName : dotE.name = dotBytes := by
    have hx := List.of_mem_filter hdotMemF
    simpa [pDot] using hx
  obtain ⟨-, hdotFit, hdotSplit, hdotDir, hdotData, hdotPerm⟩ := hwfD dotE hdotMem hdotName
  have hinj : ∀ x ∈ es, ∀ y ∈ es, x.name = y.name → x = y :=
    List.inj_on_of_nodup_map hnodup
  have hdotUnique : ∀ e ∈ es, e.name = dotBytes → e = dotE := by
    intro e he hn
    have hx : e ∈ es.filter pDot := List.mem_filter.2 ⟨he, by simp [pDot, hn]⟩
    rw [hdotE] at hx
    simpa using hx
  have hmeta : (es.foldl applyE emptyUnpackDir).meta
      = es.map fun e => (e.name, metaFinal e) := by
    have hx := foldE_meta es emptyUnpackDir hnodup (by intro e he kv hkv; cases hkv)
    simpa [emptyUnpackDir] using hx
  have hfiles : (es.foldl applyE emptyUnpackDir).files
      = (es.filter fun e => isRegMode e.mode).map fun e => (e.name, e.data) := by
    have hx := foldE_files es emptyUnpackDir hnodup (by intro e he kv hkv; cases hkv)
    simpa [emptyUnpackDir] using hx
  have hdirsN : (es.foldl applyE emptyUnpackDir).dirs.Nodup :=
    foldE_dirs_nodup es emptyUnpackDir (by simp [emptyUnpackDir])
  have hdirsMem : ∀ x, x ∈ (es.foldl applyE emptyUnpackDir).dirs
      ↔ ∃ e ∈ es, x ∈ dirContrib e := by
    intro x
    rw [foldE_dirs_mem]
    simp [emptyUnpackDir]
  have hdirEntry : ∀ x ∈ (es.foldl applyE emptyUnpackDir).dirs,
      ∃ d ∈ es, d.name = x ∧ isDirMode d.mode = true ∧ x ≠ dotBytes := by
    intro x hx
    obtain ⟨e, he, hc⟩ := (hdirsMem x).1 hx
    unfold dirContrib at hc
    by_cases hd : isDirMode e.mode = true
    · rw [if_pos hd] at hc
      by_cases hdot : e.name = dotBytes
      · rw [if_pos hdot] at hc
        cases hc
      · rw [if_neg hdot] at hc
        rcases List.mem_append.1 hc with hanc | hself
        · obtain ⟨hne, d, hdmem, hdname, hdmode⟩ := hpar e he x hanc
          exact ⟨d, hdmem, hdname, hdmode, hne⟩
        · have hxe : x = e.name := by simpa using hself
          exact ⟨e, he, hxe.symm, hd, hxe ▸ hdot⟩
    · rw [if_neg hd] at hc
      by_cases hl : isLnkMode e.mode = true
      · rw [if_pos hl] at hc
        cases hc
      · rw [if_neg hl] at hc
        obtain ⟨hne, d, hdmem, hdname, hdmode⟩ := hpar e he x hc
        exact ⟨d, hdmem, hdname, hdmode, hne⟩
  have hdirsIff : ∀ x, x ∈ (es.foldl applyE emptyUnpackDir).dirs
      ↔ x ∈ (es.filter pDir).map Entry.name := by
    intro x
    constructor
    · intro hx
      obtain ⟨d, hdmem, hdname, hdmode, hne⟩ := hdirEntry x hx
      refine List.mem_map.2 ⟨d, List.mem_filter.2 ⟨hdmem, ?_⟩, hdname⟩
      have hdn : d.name ≠ dotBytes := by rw [hdname]; exact hne
      simp [pDir, pDot, hdmode, hdn]
    · intro hx
      obtain ⟨d, hdf, hdname⟩ := List.mem_map.1 hx
      have hdmem := List.mem_of_mem_filter hdf
      have hp := List.of_mem_filter hdf
      simp only [pDir, pDot, Bool.and_eq_true, Bool.not_eq_true',
        decide_eq_false_iff_not] at hp
      rw [hdirsMem]
      refine ⟨d, hdmem, ?_⟩
      unfold dirContrib
      rw [if_pos hp.2, if_neg hp.1]
      subst hdname
      exact List.mem_append.2 (Or.inr (by simp))
  have hRnodup : ((es.filter pDir).map Entry.name).Nodup :=
    hnodup.sublist ((List.filter_sublist es).map Entry.name)
  have hdirsPerm : List.Perm (es.foldl applyE emptyUnpackDir).dirs
      ((es.filter pDir).map Entry.name) :=
    (List.perm_ext_iff_of_nodup hdirsN hRnodup).2 hdirsIff
  have hdirFacts : ∀ x ∈ (es.foldl applyE emptyUnpackDir).dirs,
      ¬shouldSkip x = true ∧ relOf x = x ∧ x ∉ ([dotBytes] : List Bytes) := by
    intro x hx
    obtain ⟨d, hdmem, hdname, hdmode, hne⟩ := hdirEntry x hx
    have hwfd := hwfE d hdmem (by rw [hdname]; exact hne)
    obtain ⟨⟨hn1, hn2, hn3, hn4, hn5, hn6, hn7⟩, -⟩ := hwfd
    subst hdname
    exact ⟨hn7, relOf_eq_self _ hn1 hn4 hn5, by simp [hne]⟩
  have hW1 := emitWalkDirs_map (es.foldl applyE emptyUnpackDir).meta now [dotBytes]
    (es.foldl applyE emptyUnpackDir).dirs hdirsN hdirFacts
  have hgOnDirs : ∀ d ∈ es.filter pDir,
      writeEntry d.name [] (lookupMeta (es.foldl applyE emptyUnpackDir).meta d.name)
        true false now = d := by
    intro d hdf
    have hdmem := List.mem_of_mem_filter hdf
    have hp := List.of_mem_filter hdf
    simp only [pDir, pDot, Bool.and_eq_true, Bool.not_eq_true',
      decide_eq_false_iff_not] at hp
    have hlook : lookupMeta (es.foldl applyE emptyUnpackDir).meta d.name
        = some (metaFinal d) := by
      rw [hmeta]
      exact lookupMeta_map_of_mem es d hdmem hnodup
    rw [hlook]
    obtain ⟨⟨hn1, -⟩, -, hsplit, hkind⟩ := hwfE d hdmem hp.1
    rw [if_pos hp.2] at hkind
    exact writeEntry_dir_eq d now hn1 hsplit hp.2 hkind.1 hkind.2
  have hdirsE : List.Perm
      ((es.foldl applyE emptyUnpackDir).dirs.map fun d =>
        writeEntry d [] (lookupMeta (es.foldl applyE emptyUnpackDir).meta d) true false now)
      (es.filter pDir) := by
    refine (hdirsPerm.map _).trans ?_
    rw [List.map_map]
    have hid : (es.filter pDir).map ((fun d =>
        writeEntry d [] (lookupMeta (es.foldl applyE emptyUnpackDir).meta d) true false now)
          ∘ Entry.name) = (es.filter pDir).map id :=
      List.map_congr_left fun d hdf => hgOnDirs d hdf
    rw [hid, List.map_id]
  have hregNotDot : ∀ e ∈ es, isRegMode e.mode = true → e.name ≠ dotBytes := by
    intro e he hr hn
    have hEq := hdotUnique e he hn
    subst hEq
    simp [isRegMode, hdotDir] at hr
  have hregNotInDirs : ∀ e ∈ es, isRegMode e.mode = true
      → e.name ∉ (es.foldl applyE emptyUnpackDir).dirs := by
    intro e he hr hx
    obtain ⟨d, hdmem, hdname, hdmode, -⟩ := hdirEntry _ hx
    have hEq : d = e := hinj d hdmem e he hdname
    subst hEq
    simp [isRegMode, hdmode] at hr
  have hfnodup : (((es.filter fun e => isRegMode e.mode).map
      fun e => (e.name, e.data)).map Prod.fst).Nodup := by
    rw [List.map_map]
    exact hnodup.sublist ((List.filter_sublist es).map Entry.name)
  have hfileFacts : ∀ x ∈ (es.filter fun e => isRegMode e.mode).map
      (fun e => (e.name, e.data)),
      ¬shouldSkip x.1 = true ∧ relOf x.1 = x.1
        ∧ x.1 ∉ [dotBytes] ++ (es.foldl applyE emptyUnpackDir).dirs := by
    intro x hx
    obtain ⟨e, hef, hex⟩ := List.mem_map.1 hx
    have hem := List.mem_of_mem_filter hef
    have hr := List.of_mem_filter hef
    have hnd := hregNotDot e hem hr
    obtain ⟨⟨hn1, hn2, hn3, hn4, hn5, hn6, hn7⟩, -⟩ := hwfE e hem hnd
    subst hex
    refine ⟨hn7, relOf_eq_self _ hn1 hn4 hn5, ?_⟩
    intro hc
    rcases List.mem_append.1 hc with hc1 | hc1
    · exact hnd (by simpa using hc1)
    · exact hregNotInDirs e hem hr hc1
  have hW2 := emitWalkFiles_map (es.foldl applyE emptyUnpackDir).meta now
    ([dotBytes] ++ (es.foldl applyE emptyUnpackDir).dirs)
    ((es.filter fun e => isRegMode e.mode).map fun e => (e.name, e.data))
    hfnodup hfileFacts
  have hregMeta : ∀ e ∈ es, isRegMode e.mode = true → metaFinal e = metaOf e := by
    intro e he hr
    simp only [isRegMode, decide_eq_true_eq] at hr
    unfold metaFinal
    rw [if_neg (by simpa using hr.1), if_neg (by simpa using hr.2)]
  have hgOnFiles : ∀ e ∈ es.filter (fun e => isRegMode e.mode),
      writeEntry e.name e.data
        (lookupMeta (es.foldl applyE emptyUnpackDir).meta e.name) false
        (((lookupMeta (es.foldl applyE emptyUnpackDir).meta e.name).map
          fun m => m.symlink.isSome).getD false) now = e := by
    intro e hef
    have hem := List.mem_of_mem_filter hef
    have hr := List.of_mem_filter hef
    have hnd := hregNotDot e hem hr
    have hlook : lookupMeta (es.foldl applyE emptyUnpackDir).meta e.name
        = some (metaFinal e) := by
      rw [hmeta]
      exact lookupMeta_map_of_mem es e hem hnodup
    have hmf := hregMeta e hem hr
    have hsymNone : (metaFinal e).symlink = none := by rw [hmf]; rfl
    rw [hlook]
    have hsym : ((some (metaFinal e)).map fun m => m.symlink.isSome).getD false = false := by
      simp [hsymNone]
    rw [hsym]
    simp only [isRegMode, decide_eq_true_eq] at hr
    obtain ⟨⟨hn1, -⟩, -, hsplit, hkind⟩ := hwfE e hem hnd
    rw [if_neg hr.1, if_neg hr.2] at hkind
    exact writeEntry_reg_eq e now hn1 hsplit hkind.1 hkind.2.1 hkind.2.2
      (by simpa using hr.1) (by simpa using hr.2)
  have hfilesE : ((es.filter fun e => isRegMode e.mode).map
      (fun e => (e.name, e.data))).map (fun x => writeEntry x.1 x.2
        (lookupMeta (es.foldl applyE emptyUnpackDir).meta x.1) false
        (((lookupMeta (es.foldl applyE emptyUnpackDir).meta x.1).map
          fun m => m.symlink.isSome).getD false) now)
      = es.filter pReg := by
    rw [List.map_map]
    have hid : (es.filter fun e => isRegMode e.mode).map ((fun x =>
        writeEntry x.1 x.2 (lookupMeta (es.foldl applyE emptyUnpackDir).meta x.1) false
          (((lookupMeta (es.foldl applyE emptyUnpackDir).meta x.1).map
            fun m => m.symlink.isSome).getD false) now) ∘ fun e => (e.name, e.data))
        = (es.filter fun e => isRegMode e.mode).map id :=
      List.map_congr_left fun e hef => hgOnFiles e hef
    rw [hid, List.map_id]
    rfl
  have hsymKind : ∀ e ∈ es, (metaFinal e).symlink.isSome = true
      → isDirMode e.mode = false ∧ isLnkMode e.mode = true := by
    intro e he hs
    unfold metaFinal at hs
    by_cases hd : isDirMode e.mode = true
    · rw [if_pos hd] at hs
      simp [metaOf] at hs
    · rw [if_neg hd] at hs
      by_cases hl : isLnkMode e.mode = true
      · exact ⟨by simpa using hd, hl⟩
      · rw [if_neg hl] at hs
        simp [metaOf] at hs
  have hlnkNotDot : ∀ e ∈ es, isDirMode e.mode = false → e.name ≠ dotBytes := by
    intro e he hd hn
    have hEq := hdotUnique e he hn
    subst hEq
    rw [hdotDir] at hd
    cases hd
  have hmnodup : (((es.foldl applyE emptyUnpackDir).meta).map Prod.fst).Nodup := by
    rw [hmeta, List.map_map]
    exact hnodup
  have hlinkFacts : ∀ x ∈ (es.foldl applyE emptyUnpackDir).meta,
      x.2.symlink.isSome = true →
      x.1 ≠ [] ∧ x.1 ∉ ([dotBytes] ++ (es.foldl applyE emptyUnpackDir).dirs)
          ++ ((es.filter fun e => isRegMode e.mode).map
            (fun e => (e.name, e.data))).map Prod.fst
        ∧ ∀ p ∈ ancestorPaths x.1, relOf p = p
            ∧ (p = dotBytes ∨ p ∈ ([dotBytes] ++ (es.foldl applyE emptyUnpackDir).dirs)
                ++ ((es.filter fun e => isRegMode e.mode).map
                  (fun e => (e.name, e.data))).map Prod.fst) := by
    intro x hx hs
    rw [hmeta] at hx
    obtain ⟨e, hem, hex⟩ := List.mem_map.1 hx
    subst hex
    obtain ⟨hd, hl⟩ := hsymKind e hem hs
    have hnd := hlnkNotDot e hem hd
    obtain ⟨⟨hn1, hn2, hn3, hn4, hn5, hn6, hn7⟩, -⟩ := hwfE e hem hnd
    refine ⟨hn1, ?_, ?_⟩
    · intro hc
      rcases List.mem_append.1 hc with hc1 | hc1
      · rcases List.mem_append.1 hc1 with hc2 | hc2
        · exact hnd (by simpa using hc2)
        · obtain ⟨d, hdmem, hdname, hdmode, -⟩ := hdirEntry _ hc2
          have hEq : d = e := hinj d hdmem e hem hdname
          subst hEq
          rw [hdmode] at hd
          cases hd
      · rw [List.map_map] at hc1
        obtain ⟨e', hef, hename⟩ := List.mem_map.1 hc1
        have hem' := List.mem_of_mem_filter hef
        have hr' := List.of_mem_filter hef
        have hEq : e' = e := hinj e' hem' e hem hename
        subst hEq
        simp only [isRegMode, decide_eq_true_eq] at hr'
        exact hr'.2 (by simpa using hl)
    · intro p hp
      obtain ⟨hpd, d, hdmem, hdname, hdmode⟩ := hpar e hem p hp
      have hdn : d.name ≠ dotBytes := by rw [hdname]; exact hpd
      obtain ⟨⟨hm1, hm2, hm3, hm4, hm5, hm6, hm7⟩, -⟩ := hwfE d hdmem hdn
      have hin : p ∈ (es.foldl applyE emptyUnpackDir).dirs := by
        rw [hdirsMem]
        refine ⟨d, hdmem, ?_⟩
        unfold dirContrib
        rw [if_pos hdmode, if_neg hdn]
        rw [hdname]
        exact List.mem_append.2 (Or.inr (by simp))
      subst hdname
      exact ⟨relOf_eq_self _ hm1 hm4 hm5,
        Or.inr (List.mem_append.2 (Or.inl (List.mem_append.2 (Or.inr hin))))⟩
  have hW3 := emitSymlinks_map (es.foldl applyE emptyUnpackDir).meta now
    (([dotBytes] ++ (es.foldl applyE emptyUnpackDir).dirs)
      ++ ((es.filter fun e => isRegMode e.mode).map
        (fun e => (e.name, e.data))).map Prod.fst)
    (es.foldl applyE emptyUnpackDir).meta hmnodup hlinkFacts
  have hsymFilter : (es.map fun e => (e.name, metaFinal e)).filter
      (fun x => x.2.symlink.isSome)
      = (es.filter pLnk).map fun e => (e.name, metaFinal e) := by
    rw [List.filter_map]
    congr 1
    refine List.filter_congr ?_
    intro e he
    show (metaFinal e).symlink.isSome = pLnk e
    unfold metaFinal pLnk
    by_cases hd : isDirMode e.mode = true
    · rw [if_pos hd]
      simp [metaOf, hd]
    · rw [if_neg hd]
      by_cases hl : isLnkMode e.mode = true
      · rw [if_pos hl]
        have hd2 : isDirMode e.mode = false := by simpa using hd
        simp [hd2, hl]
      · rw [if_neg hl]
        have hd2 : isDirMode e.mode = false := by simpa using hd
        have hl2 : isLnkMode e.mode = false := by simpa using hl
        simp [metaOf, hd2, hl2]
  have hgOnLinks : ∀ e ∈ es.filter pLnk,
      writeEntry e.name [] (some (metaFinal e)) false true now = e := by
    intro e hef
    have hem := List.mem_of_mem_filter hef
    have hp := List.of_mem_filter hef
    simp only [pLnk, Bool.and_eq_true, Bool.not_eq_true'] at hp
    have hnd := hlnkNotDot e hem hp.1
    obtain ⟨⟨hn1, -⟩, -, hsplit, hkind⟩ := hwfE e hem hnd
    rw [if_neg (by simp [hp.1]), if_pos hp.2] at hkind
    exact writeEntry_lnk_eq e now hn1 hsplit hp.2 hp.1 hkind.1 hkind.2
  have hlinksE : ((es.filter pLnk).map fun e => (e.name, metaFinal e)).map
      (fun x => writeEntry x.1 [] (some x.2) false true now) = es.filter pLnk := by
    rw [List.map_map]
    have hid : (es.filter pLnk).map ((fun x =>
        writeEntry x.1 [] (some x.2) false true now) ∘ fun e => (e.name, metaFinal e))
        = (es.filter pLnk).map id :=
      List.map_congr_left fun e hef => hgOnLinks e hef
    rw [hid, List.map_id]
  have hdotEmit : writeEntry dotBytes []
      (lookupMeta (es.foldl applyE emptyUnpackDir).meta dotBytes) true false now
        = dotE := by
    have hlook : lookupMeta (es.foldl applyE emptyUnpackDir).meta dotBytes
        = some (metaFinal dotE) := by
      rw [hmeta, ← hdotName]
      exact lookupMeta_map_of_mem es dotE hdotMem hnodup
    rw [hlook, ← hdotName]
    refine writeEntry_dir_eq dotE now ?_ hdotSplit hdotDir hdotData ?_
    · rw [hdotName]
      simp [dotBytes]
    · rw [hdotName]
      exact hdotPerm
  have hpartition : ∀ x ∈ es,
      (pDot x = true ∧ pDir x = false ∧ pReg x = false ∧ pLnk x = false)
      ∨ (pDot x = false ∧ pDir x = true ∧ pReg x = false ∧ pLnk x = false)
      ∨ (pDot x = false ∧ pDir x = false ∧ pReg x = true ∧ pLnk x = false)
      ∨ (pDot x = false ∧ pDir x = false ∧ pReg x = false ∧ pLnk x = true) := by
    intro x hx
    by_cases hd : x.name = dotBytes
    · have hdirx := (hwfD x hx hd).2.2.2.1
      exact Or.inl ⟨by simp [pDot, hd], by simp [pDir, pDot, hd],
        by simp [pReg, isRegMode, hdirx], by simp [pLnk, hdirx]⟩
    · by_cases hdir : isDirMode x.mode = true
      · exact Or.inr (Or.inl ⟨by simp [pDot, hd], by simp [pDir, pDot, hd, hdir],
          by simp [pReg, isRegMode, hdir], by simp [pLnk, hdir]⟩)
      · have hdir2 : isDirMode x.mode = false := by simpa using hdir
        by_cases hl : isLnkMode x.mode = true
        · exact Or.inr (Or.inr (Or.inr ⟨by simp [pDot, hd],
            by simp [pDir, hdir2], by simp [pReg, isRegMode, hdir2, hl],
            by simp [pLnk, hdir2, hl]⟩))
        · have hl2 : isLnkMode x.mode = false := by simpa using hl
          exact Or.inr (Or.inr (Or.inl ⟨by simp [pDot, hd],
            by simp [pDir, hdir2], by simp [pReg, isRegMode, hdir2, hl2],
            by simp [pLnk, hdir2, hl2]⟩))
  have hpart := perm_partition4 es pDot pDir pReg pLnk hpartition
  rw [hdotE] at hpart
  unfold buildEntries
  rw [hW1]
  simp only
  rw [hfiles, hW2]
  simp only
  rw [hW3]
  have hfiltS : ((es.foldl applyE emptyUnpackDir).meta).filter
      (fun x => x.2.symlink.isSome)
      = (es.filter pLnk).map fun e => (e.name, metaFinal e) := by
    rw [hmeta]
    exact hsymFilter
  rw [hfiltS, hlinksE, hfilesE, hdotEmit]
  refine List.Perm.trans ?_ hpart.symm
  refine List.Perm.cons dotE ?_
  rw [List.append_assoc]
  show List.Perm _ ([] ++ (es.filter pDir ++ (es.filter pReg ++ es.filter pLnk)))
  rw [List.nil_append]
  exact List.Perm.append hdirsE (List.Perm.refl _)

theorem wfArchive_recordOk (es : List Entry) (h : wfArchive es) :
    ∀ e ∈ es, recordOk e := by
  intro e he
  obtain ⟨-, -, hwf, -⟩ := h
  have hx := hwf e he
  by_cases hd : e.name = dotBytes
  · rw [if_pos hd] at hx
    exact wfDotEntry_recordOk e hx
  · rw [if_neg hd] at hx
    exact wfEntry_recordOk e hx

/-- A four-member archive: the "." directory, an empty directory "d", a
regular file "a" with LF-only content, and a symlink "l" to "a". -/
def c1GoodArchive : List Entry :=
  [{ name := [46], ino := 1, mode := 0o40755, uid := 0, gid := 0, nlink := 2,
     mtime := 1000, devmajor := 0, devminor := 0, rdevmajor := 0, rdevminor := 0,
     data := [] },
   { name := [100], ino := 2, mode := 0o40755, uid := 0, gid := 0, nlink := 2,
     mtime := 1000, devmajor := 0, devminor := 0, rdevmajor := 0, rdevminor := 0,
     data := [] },
   { name := [97], ino := 3, mode := 0o100644, uid := 0, gid := 0, nlink := 1,
     mtime := 1000, devmajor := 0, devminor := 0, rdevmajor := 0, rdevminor := 0,
     data := [104, 105, 10] },
   { name := [108], ino := 4, mode := 0o120777, uid := 0, gid := 0, nlink := 1,
     mtime := 1000, devmajor := 0, devminor := 0, rdevmajor := 0, rdevminor := 0,
     data := [97] }]

/-- An archive with a file, an empty directory and a symlink, but no "."
entry, and whose shell script "a.sh" contains a CRLF pair. -/
def c1BadArchive : List Entry :=
  [{ name := [100], ino := 1, mode := 0o40755, uid := 0, gid := 0, nlink := 2,
     mtime := 1000, devmajor := 0, devminor := 0, rdevmajor := 0, rdevminor := 0,
     data := [] },
   { name := [97, 46, 115, 104], ino := 2, mode := 0o100755, uid := 0, gid := 0,
     nlink := 1, mtime := 1000, devmajor := 0, devminor := 0, rdevmajor := 0,
     rdevminor := 0, data := [97, 13, 10] },
   { name := [108], ino := 3, mode := 0o120777, uid := 0, gid := 0, nlink := 1,
     mtime := 1000, devmajor := 0, devminor := 0, rdevmajor := 0, rdevminor := 0,
     data := [97, 46, 115, 104] }]

/-- C1 (amended): for every archive in the canonical well-formedness
class `wfArchive` — distinct clean names, a "." entry, all parents
present, modes fixed under the packer's permission policy, zero checksum
field, CRLF-free shell scripts, ASCII symlink targets — unpacking the
serialized archive succeeds and packing the resulting tree reproduces
exactly the original members: the rebuilt entry list is a permutation of
the original one, hence the serialized member records agree as multisets
(byte-identical header fields and data per entry, entry set equal up to
ordering).  Outside this class the contract fails, as the recorded
counterexample shows. -/
theorem C1_round_trip_amended (es : List Entry) (now : Nat) (h : wfArchive es) :
    ∃ st, parseCpio (serializeArchive es) emptyUnpackDir = Except.ok st
      ∧ List.Perm (buildEntries now st) es
      ∧ List.Perm ((buildEntries now st).map serializeEntry) (es.map serializeEntry)
      ∧ roundTripOk now es = true := by
  have hparse := parseCpio_archive es emptyUnpackDir (wfArchive_recordOk es h)
  have hperm := buildEntries_perm es now h
  refine ⟨es.foldl applyE emptyUnpackDir, hparse, hperm, hperm.map serializeEntry, ?_⟩
  unfold roundTripOk
  rw [hparse]
  show decide (List.Perm
      ((buildEntries now (es.foldl applyE emptyUnpackDir)).map serializeEntry)
      (es.map serializeEntry)) = true
  exact decide_eq_true (hperm.map serializeEntry)

set_option maxRecDepth 100000 in
/-- Witness: the amended round-trip contract holds on a concrete archive
with a file, an empty directory and a symlink. -/
theorem C1_round_trip_witness :
    wfArchive c1GoodArchive ∧ roundTripOk 0 c1GoodArchive = true := by
  refine ⟨by decide, ?_⟩
  obtain ⟨st, -, -, -, hok⟩ := C1_round_trip_amended c1GoodArchive 0 (by decide)
  exact hok

set_option maxRecDepth 100000 in
/-- C1 (counterexample): for `c1BadArchive` — a tree with a file, an
empty directory and a symlink — unpacking succeeds but packing the
unmodified tree does not reproduce the member records even as a multiset:
the round trip adds a "." entry and rewrites the CRLF pair of "a.sh", so
the claim as stated fails. -/
theorem C1_round_trip_counterexample :
    (parseCpio (serializeArchive c1BadArchive) emptyUnpackDir).isOk = true
      ∧ roundTripOk 0 c1BadArchive = false := by
  constructor
  · decide
  · decide

/-! ### The async entry points `unpack_initrd` and `repack_initrd` -/

/-- Model of `unpack_initrd`: the decompression stage
(`_decompress_initrd_stream`, whose gzip/zstd work happens in external
libraries) is passed in as its outcome, and the parse stage is
`_parse_cpio_newc_to_dir`.  The `try`/`except Exception` wrapper logs and
returns `False` on any stage exception and returns `True` otherwise, so
the wrapper as a whole is a total Boolean function of the stage
outcomes. -/
def unpack_initrd (decompressed : Except Unit Bytes) : Bool :=
  match decompressed with
  | Except.error _ => false
  | Except.ok data =>
    match parseCpio data emptyUnpackDir with
    | Except.ok _ => true
    | Except.error _ => false

/-- Model of `repack_initrd`: the pack stage
(`_build_cpio_newc_from_dir`), the compression stage
(`_compress_initrd_zstd`) and the output write (mkdir/chmod/touch and
`out_path.write_bytes`) are passed in as their outcomes; the
`try`/`except Exception` wrapper turns any stage exception into `False`
and returns `True` only when all of them succeed. -/
def repack_initrd (built : Except Unit Bytes)
    (compress : Bytes → Except Unit Bytes)
    (writeOut : Bytes → Except Unit Unit) : Bool :=
  match built with
  | Except.error _ => false
  | Except.ok cpioBytes =>
    match compress cpioBytes with
    | Except.error _ => false
    | Except.ok zbytes =>
      match writeOut zbytes with
      | Except.error _ => false
      | Except.ok _ => true

theorem parseOne_magic_ok (rem : Bytes) (hlen : ¬ rem.length < cpioHeaderLen)
    (hne : parseOne rem ≠ ParseStep.fail) :
    (rem.take cpioHeaderLen).take 6 = magicBytes := by
  unfold parseOne at hne
  rw [if_neg hlen] at hne
  by_contra hbad
  rw [if_pos hbad] at hne
  exact hne rfl

theorem visitedHeadersAux_bad_magic (fuel : Nat) :
    ∀ (rem : Bytes) (st : UnpackDir), rem.length ≤ fuel →
      (∃ hdr ∈ visitedHeadersAux fuel rem, hdr.take 6 ≠ magicBytes) →
      parseCpioAux fuel rem st = Except.error () := by
  induction fuel with
  | zero =>
    intro rem st _ h
    simp [visitedHeadersAux] at h
  | succ fuel ih =>
    intro rem st hf h
    simp only [visitedHeadersAux] at h
    by_cases hlen : rem.length < cpioHeaderLen
    · rw [if_pos hlen] at h
      simp at h
    · rw [if_neg hlen] at h
      cases hp : parseOne rem with
      | done =>
        rw [hp] at h
        obtain ⟨hdr, hmem, hbad⟩ := h
        simp only [List.mem_singleton] at hmem
        subst hmem
        exact absurd (parseOne_magic_ok rem hlen (by rw [hp]; simp)) hbad
      | fail =>
        simp only [parseCpioAux]
        rw [hp]
      | record n f b k =>
        rw [hp] at h
        obtain ⟨hdr, hmem, hbad⟩ := h
        have hgood := parseOne_magic_ok rem hlen (by rw [hp]; simp)
        have hmem' : hdr ∈ visitedHeadersAux fuel (rem.drop k) := by
          rcases List.mem_cons.1 hmem with h1 | h2
          · subst h1
            exact absurd hgood hbad
          · exact h2
        have hk := parseOne_record_next rem n f b k hp
        simp only [parseCpioAux]
        rw [hp]
        exact ih (rem.drop k) _ (by simp only [List.length_drop]; omega) ⟨hdr, hmem', hbad⟩

/-- C6: if any 110-byte header block the parse loop visits has a 6-byte
magic field other than "070701", the parse of `_parse_cpio_newc_to_dir`
aborts the whole operation with an error — no destination state is
returned for any starting state, so no partially extracted tree is
treated as valid output — and `unpack_initrd` reports failure for that
byte stream. -/
theorem C6_bad_magic_aborts (rem : Bytes) (st : UnpackDir)
    (h : ∃ hdr ∈ visitedHeaders rem, hdr.take 6 ≠ magicBytes) :
    parseCpio rem st = Except.error ()
      ∧ unpack_initrd (Except.ok rem) = false := by
  have h1 : parseCpio rem st = Except.error () :=
    visitedHeadersAux_bad_magic rem.length rem st (Nat.le_refl _) h
  have h2 : parseCpio rem emptyUnpackDir = Except.error () :=
    visitedHeadersAux_bad_magic rem.length rem emptyUnpackDir (Nat.le_refl _) h
  refine ⟨h1, ?_⟩
  unfold unpack_initrd
  show (match parseCpio rem emptyUnpackDir with
    | Except.ok _ => true
    | Except.error _ => false) = false
  rw [h2]

/-- A stream whose single header block carries the magic "000000". -/
def c6Bytes : Bytes := List.replicate 110 48

set_option maxRecDepth 100000 in
/-- Witness: the concrete stream `c6Bytes` has a visited header with a
bad magic, and unpacking it aborts with an error. -/
theorem C6_bad_magic_aborts_witness :
    (∃ hdr ∈ visitedHeaders c6Bytes, hdr.take 6 ≠ magicBytes)
      ∧ parseCpio c6Bytes emptyUnpackDir = Except.error ()
      ∧ unpack_initrd (Except.ok c6Bytes) = false := by
  have h : ∃ hdr ∈ visitedHeaders c6Bytes, hdr.take 6 ≠ magicBytes := by decide
  have h2 := C6_bad_magic_aborts c6Bytes emptyUnpackDir h
  exact ⟨h, h2.1, h2.2⟩

/-- C9: the two codec entry points are total over exceptions: whatever
the stage outcomes, each wrapper returns a Boolean, returning `false`
exactly when some stage raises (the wrapper catches the exception) and
`true` exactly when every stage succeeds; no exception outcome escapes
either wrapper.  The four equivalences jointly cover every combination of
stage outcomes. -/
theorem C9_codec_total (d built : Except Unit Bytes)
    (compress : Bytes → Except Unit Bytes)
    (writeOut : Bytes → Except Unit Unit) :
    (unpack_initrd d = false
        ↔ d = Except.error ()
          ∨ ∃ data, d = Except.ok data
            ∧ parseCpio data emptyUnpackDir = Except.error ())
      ∧ (unpack_initrd d = true
        ↔ ∃ data st, d = Except.ok data
            ∧ parseCpio data emptyUnpackDir = Except.ok st)
      ∧ (repack_initrd built compress writeOut = false
        ↔ built = Except.error ()
          ∨ ∃ c, built = Except.ok c
            ∧ (compress c = Except.error ()
              ∨ ∃ z, compress c = Except.ok z ∧ writeOut z = Except.error ()))
      ∧ (repack_initrd built compress writeOut = true
        ↔ ∃ c z, built = Except.ok c ∧ compress c = Except.ok z
            ∧ writeOut z = Except.ok ()) := by
  refine ⟨?_, ?_, ?_, ?_⟩
  · cases d with
    | error u => cases u; simp [unpack_initrd]
    | ok data =>
      cases hp : parseCpio data emptyUnpackDir with
      | ok st => simp [unpack_initrd, hp]
      | error u => cases u; simp [unpack_initrd, hp]
  · cases d with
    | error u => cases u; simp [unpack_initrd]
    | ok data =>
      cases hp : parseCpio data emptyUnpackDir with
      | ok st => simp [unpack_initrd, hp]
      | error u => cases u; simp [unpack_initrd, hp]
  · cases built with
    | error u => cases u; simp [repack_initrd]
    | ok c =>
      cases hz : compress c with
      | error u => cases u; simp [repack_initrd, hz]
      | ok z =>
        cases hw : writeOut z with
        | error u => cases u; simp [repack_initrd, hz, hw]
        | ok u => cases u; simp [repack_initrd, hz, hw]
  · cases built with
    | error u => cases u; simp [repack_initrd]
    | ok c =>
      cases hz : compress c with
      | error u => cases u; simp [repack_initrd, hz]
      | ok z =>
        cases hw : writeOut z with
        | error u => cases u; simp [repack_initrd, hz, hw]
        | ok u => cases u; simp [repack_initrd, hz, hw]

theorem headerOf_size_field (e : Entry) :
    ((headerOf e).drop 54).take 8 = hex8 e.data.length := by
  have h : (headerOf e).drop 54
      = ((((((((headerOf e).drop 6).drop 8).drop 8).drop 8).drop 8).drop 8).drop 8) := by
    simp [List.drop_drop]
  rw [h]
  unfold headerOf
  simp only [List.append_assoc]
  rw [drop6_magic, drop8_hex8, drop8_hex8, drop8_hex8, drop8_hex8, drop8_hex8,
    drop8_hex8, take8_hex8]

/-- C10: when the packer emits a regular-file entry (not a directory, not
a symlink) with a nonempty name, the emitted data is the CRLF-to-LF
rewrite of the on-disk content exactly when the shell-script test holds —
the name is "init", the name ends in ".sh", or the content starts with
"#!" and its first line contains "/sh" — and is the verbatim content
otherwise; the filesize field of the emitted header (bytes 54–62) is the
8-hex-digit rendering of the emitted data's length; and the rewrite
itself replaces each left-to-right non-overlapping 13,10 pair by a single
10 and copies every other byte unchanged. -/
theorem C10_shell_script_lf (name diskData : Bytes) (meta : Option MetaEntry)
    (now : Nat) (hname : name ≠ []) :
    ((writeEntry name diskData meta false false now).data
        = if isTextShellScript name diskData then toUnixLf diskData else diskData)
      ∧ ((headerOf (writeEntry name diskData meta false false now)).drop 54).take 8
        = hex8 (if isTextShellScript name diskData then toUnixLf diskData
            else diskData).length
      ∧ (isTextShellScript name diskData = true
          ↔ name = initBytes ∨ dotShBytes.isSuffixOf name = true
            ∨ (shebangBytes.isPrefixOf diskData = true
              ∧ containsSeq slashShBytes (firstLineOf diskData) = true))
      ∧ (∀ rest : Bytes, toUnixLf (13 :: 10 :: rest) = 10 :: toUnixLf rest)
      ∧ (∀ (c : Nat) (rest : Bytes), c ≠ 13
          → toUnixLf (c :: rest) = c :: toUnixLf rest)
      ∧ (∀ (c2 : Nat) (rest : Bytes), c2 ≠ 10
          → toUnixLf (13 :: c2 :: rest) = 13 :: toUnixLf (c2 :: rest))
      ∧ toUnixLf [13] = [13] := by
  have hdata : (writeEntry name diskData meta false false now).data
      = if isTextShellScript name diskData then toUnixLf diskData else diskData := by
    simp [writeEntry, hname]
  refine ⟨hdata, ?_, ?_, ?_, ?_, ?_, rfl⟩
  · rw [headerOf_size_field, hdata]
  · simp [isTextShellScript]
  · intro rest
    simp [toUnixLf]
  · intro c rest hc
    cases rest with
    | nil => rfl
    | cons c2 r2 => simp [toUnixLf, hc]
  · intro c2 rest hc2
    simp [toUnixLf, hc2]

/-- Witness: the amended statement of the packer's line-ending rewrite at
a concrete shell script: the file "a.sh" with content "a\r\nb" is emitted
as "a\nb" with size field "00000003". -/
theorem C10_shell_script_lf_witness :
    ([97, 46, 115, 104] : Bytes) ≠ []
      ∧ (writeEntry [97, 46, 115, 104] [97, 13, 10, 98] none false false 7).data
        = [97, 10, 98]
      ∧ ((headerOf (writeEntry [97, 46, 115, 104] [97, 13, 10, 98] none false false 7)).drop
          54).take 8 = hex8 3 := by
  have h := C10_shell_script_lf [97, 46, 115, 104] [97, 13, 10, 98] none 7 (by decide)
  refine ⟨by decide, ?_, ?_⟩
  · rw [h.1]
    decide
  · rw [h.2.1]
    decide

/-! ### Job pipeline, registry and websocket observers -/

/-- The four job states of `JobStatus` in `iso_jobs.py`. -/
inductive JobStatus where
  | pending
  | in_progress
  | completed
  | failed
deriving DecidableEq, Repr

/-- Whether a status is terminal. -/
def isTerminal : JobStatus → Bool
  | JobStatus.completed => true
  | JobStatus.failed => true
  | _ => false

/-- What the pipeline task of `Job.run` ends in, as seen at the task
boundary: `raised` when an exception escapes the coroutine (asyncio
stores it in the task object; no status transition happens), or
`finished status progress` when the coroutine reaches an `on_finish`
call with those arguments. -/
inductive RunOutcome where
  | raised
  | finished (status : JobStatus) (progress : Nat)
deriving DecidableEq, Repr

/-- Model of `Job.run`.  The effectful stages are passed in as their
outcomes: `cacheNew` is `CacheManager.new()`, `isoNew` is
`ProxmoxISO.new()`, `download` is `self._proxmox_iso.download(...)`
(`Except.ok b` means it returned `b`, `Except.error` means it raised),
and `modify` is the `create_modified_iso` block (`Except.ok (some p)`
means it returned path `p`, `Except.ok none` means it returned a falsy
path, `Except.error` means it raised).  Only the `modify` stage sits in a
`try`/`except`; its exception is caught and treated as a `None` path.
The first three stages run outside any handler, so their exceptions
escape the task. -/
def runModel (cacheNew isoNew : Except Unit Unit) (download : Except Unit Bool)
    (modify : Except Unit (Option Nat)) : RunOutcome :=
  match cacheNew with
  | Except.error _ => RunOutcome.raised
  | Except.ok _ =>
    match isoNew with
    | Except.error _ => RunOutcome.raised
    | Except.ok _ =>
      match download with
      | Except.error _ => RunOutcome.raised
      | Except.ok false => RunOutcome.finished JobStatus.failed 0
      | Except.ok true =>
        match modify with
        | Except.error _ => RunOutcome.finished JobStatus.failed 0
        | Except.ok none => RunOutcome.finished JobStatus.failed 0
        | Except.ok (some _) => RunOutcome.finished JobStatus.completed 100

/-- The status writes `Job.on_finish` performs: the requested status,
then — only when that status is Completed, a modified ISO exists and the
move of the artifact to its final location raises — a second write
flipping the job to Failed (with progress reset to 0). -/
def onFinishWrites (status : JobStatus) (hasModifiedIso moveFails : Bool) :
    List JobStatus :=
  if status = JobStatus.completed ∧ hasModifiedIso = true ∧ moveFails = true
  then [status, JobStatus.failed]
  else [status]

/-- The sequence of status writes a run of the pipeline performs after
construction (the constructor wrote Pending).  Stage outcomes as in
`runModel`; `moveFails` is whether the artifact move inside `on_finish`
raises.  A stage whose exception escapes the task ends the write
sequence where it stood. -/
def statusWrites (cacheNew isoNew : Except Unit Unit) (download : Except Unit Bool)
    (modify : Except Unit (Option Nat)) (moveFails : Bool) : List JobStatus :=
  match cacheNew with
  | Except.error _ => []
  | Except.ok _ =>
    JobStatus.in_progress ::
      (match isoNew with
       | Except.error _ => []
       | Except.ok _ =>
         match download with
         | Except.error _ => []
         | Except.ok false => onFinishWrites JobStatus.failed false moveFails
         | Except.ok true =>
           match modify with
           | Except.error _ => onFinishWrites JobStatus.failed true moveFails
           | Except.ok none => onFinishWrites JobStatus.failed true moveFails
           | Except.ok (some _) => onFinishWrites JobStatus.completed true moveFails)

/-- One allowed forward transition of the claimed lifecycle. -/
def stepOk : JobStatus → JobStatus → Bool
  | JobStatus.pending, JobStatus.in_progress => true
  | JobStatus.in_progress, JobStatus.completed => true
  | JobStatus.in_progress, JobStatus.failed => true
  | _, _ => false

/-- The claimed lifecycle invariant of a status sequence: every adjacent
pair is an allowed forward transition (hence nothing follows a terminal
status and no status is re-entered). -/
def lifecycleOk : List JobStatus → Bool
  | [] => true
  | [_] => true
  | a :: b :: rest => stepOk a b && lifecycleOk (b :: rest)

/-- `MAX_JOBS` of `iso_jobs.py`. -/
def MAX_JOBS : Nat := 5

/-- `below_max_jobs`: the registry holds fewer than `MAX_JOBS` jobs
(jobs are removed from the registry when they finish, so the registry
holds exactly the Pending/InProgress jobs). -/
def below_max_jobs (count : Nat) : Bool := count < MAX_JOBS

/-- What one POST to the ISO route ends in. -/
inductive SubmitResult where
  | admissionError
  | cacheHit (jobId : Nat)
  | created (jobId : Nat)
deriving DecidableEq, Repr

/-- Model of `post_installer_iso` at the admission level: the registry
size, and `cacheHit` the cached job id the answer-file hash resolves to
(when the cache holds a finished ISO for the same answer file).  The
route checks the limit, consults the cache (304 with the existing job,
creating nothing), re-checks the limit, then creates and registers a new
job.  Fresh job ids are modelled by the registry size at creation; the
result pairs the response with the new registry size. -/
def post_installer_iso (count : Nat) (cacheHit : Option Nat) :
    SubmitResult × Nat :=
  if below_max_jobs count = false then (SubmitResult.admissionError, count)
  else
    match cacheHit with
    | some j => (SubmitResult.cacheHit j, count)
    | none =>
      if below_max_jobs count = false then (SubmitResult.admissionError, count)
      else (SubmitResult.created count, count + 1)

/-- `n` consecutive cache-miss submissions with no job finishing in
between, starting from registry size `count`. -/
def submitSeq (count : Nat) : Nat → List SubmitResult
  | 0 => []
  | n + 1 =>
    (post_installer_iso count none).1
      :: submitSeq (post_installer_iso count none).2 n

/-- What a job looks like to the websocket route: current status,
progress, and the attached observer channel if any. -/
structure JobObs where
  status : JobStatus
  progress : Nat
  socket : Option Nat
deriving DecidableEq, Repr

/-- What one websocket connection to `/api/ws/iso` ends in. -/
inductive WsOutcome where
  | closed1008
  | attached (snapshotStatus : JobStatus) (snapshotProgress : Nat)
deriving DecidableEq, Repr

/-- Model of `installer_iso_ws_route` after the handshake: look the job
up; close the channel with code 1008 when it does not exist or already
has an observer attached (the existing observer is kept, the new channel
is refused); otherwise attach the channel and immediately send it a
snapshot of the job's current status and progress.  The result pairs the
outcome on the new channel with the job state the route leaves. -/
def installer_iso_ws_route (job : Option JobObs) (ws : Nat) :
    WsOutcome × Option JobObs :=
  match job with
  | none => (WsOutcome.closed1008, none)
  | some j =>
    if j.socket.isSome then (WsOutcome.closed1008, some j)
    else (WsOutcome.attached j.status j.progress,
      some { j with socket := some ws })

/-! ### The answer-file cache manifest -/

/-- The manifest state of `CacheManager` plus the cache files on disk:
`by_job` maps job ids to content digests, `by_hash` maps digests to blob
paths, `iso_by_job` maps job ids to ISO paths, and `disk` lists the
paths that currently exist.  Ids, digests and paths are abstracted as
naturals; `0` plays the falsy string (`""`, the default of
`dict.get(k, "")` and the value `if not x:` rejects). -/
structure CacheState where
  by_job : List (Nat × Nat)
  by_hash : List (Nat × Nat)
  iso_by_job : List (Nat × Nat)
  disk : List Nat
deriving DecidableEq, Repr

/-- Python `dict.get`. -/
def lookupAssoc (k : Nat) : List (Nat × Nat) → Option Nat
  | [] => none
  | (k', v) :: rest => if k' = k then some v else lookupAssoc k rest

/-- Python `dict.pop(k, None)`: the removed value (if any) and the
remaining mapping. -/
def popAssoc (k : Nat) : List (Nat × Nat) → Option Nat × List (Nat × Nat)
  | [] => (none, [])
  | (k', v) :: rest =>
    if k' = k then (some v, rest)
    else ((popAssoc k rest).1, (k', v) :: (popAssoc k rest).2)

/-- Model of `CacheManager.delete_by_job`: pop the job's digest; when the
digest is truthy and no remaining job maps to it, pop the digest's path
from `by_hash` and, when that path is truthy and the file exists, unlink
it. -/
def delete_by_job (jid : Nat) (st : CacheState) : CacheState :=
  match popAssoc jid st.by_job with
  | (none, _) => st
  | (some digest, bj) =>
    if digest = 0 then { st with by_job := bj }
    else if bj.any (fun kv => kv.2 = digest) then { st with by_job := bj }
    else
      match popAssoc digest st.by_hash with
      | (none, _) => { st with by_job := bj }
      | (some pathStr, bh) =>
        if pathStr = 0 then { st with by_job := bj, by_hash := bh }
        else
          { st with
            by_job := bj
            by_hash := bh
            disk := if pathStr ∈ st.disk then st.disk.erase pathStr else st.disk }

/-- Model of `CacheManager.get_path_by_job`: resolve the job to a digest
(falsy digest means absent), the digest to a path with `""` as the
default, and return the path only when it exists on disk. -/
def get_path_by_job (st : CacheState) (jid : Nat) : Option Nat :=
  match lookupAssoc jid st.by_job with
  | none => none
  | some digest =>
    if digest = 0 then none
    else
      if (lookupAssoc digest st.by_hash).getD 0 ∈ st.disk
      then some ((lookupAssoc digest st.by_hash).getD 0)
      else none

/-- Model of `CacheManager.get_answer_path`; its body in the source is
line-for-line the body of `get_path_by_job`. -/
def get_answer_path (st : CacheState) (jid : Nat) : Option Nat :=
  get_path_by_job st jid

/-- Model of `CacheManager.get_iso_path`: resolve the job to a path
(falsy means absent) and return it only when it exists on disk. -/
def get_iso_path (st : CacheState) (jid : Nat) : Option Nat :=
  match lookupAssoc jid st.iso_by_job with
  | none => none
  | some p =>
    if p = 0 then none
    else if p ∈ st.disk then some p else none

/-! ### Assoc-list lemmas for the manifest -/

theorem popAssoc_fst (k : Nat) (l : List (Nat × Nat)) :
    (popAssoc k l).1 = lookupAssoc k l := by
  induction l with
  | nil => rfl
  | cons kv rest ih =>
    obtain ⟨k', v⟩ := kv
    simp only [popAssoc, lookupAssoc]
    split_ifs with h
    · rfl
    · exact ih

theorem popAssoc_snd_sublist (k : Nat) (l : List (Nat × Nat)) :
    (popAssoc k l).2.Sublist l := by
  induction l with
  | nil => exact List.Sublist.refl _
  | cons kv rest ih =>
    obtain ⟨k', v⟩ := kv
    simp only [popAssoc]
    split_ifs with h
    · exact List.sublist_cons_self _ _
    · exact List.Sublist.cons₂ _ ih

theorem lookupAssoc_eq_none_of_not_mem (k : Nat) (l : List (Nat × Nat))
    (h : k ∉ l.map Prod.fst) : lookupAssoc k l = none := by
  induction l with
  | nil => rfl
  | cons kv rest ih =>
    obtain ⟨k', v⟩ := kv
    simp only [List.map_cons, List.mem_cons] at h
    push_neg at h
    simp only [lookupAssoc]
    rw [if_neg fun he => h.1 he.symm]
    exact ih h.2

theorem lookupAssoc_popAssoc_self (k : Nat) (l : List (Nat × Nat))
    (h : (l.map Prod.fst).Nodup) : lookupAssoc k (popAssoc k l).2 = none := by
  induction l with
  | nil => rfl
  | cons kv rest ih =>
    obtain ⟨k', v⟩ := kv
    simp only [List.map_cons, List.nodup_cons] at h
    simp only [popAssoc]
    split_ifs with hk
    · subst hk
      exact lookupAssoc_eq_none_of_not_mem _ _ h.1
    · simp only [lookupAssoc, if_neg hk]
      exact ih h.2

theorem lookupAssoc_popAssoc_other (k j : Nat) (l : List (Nat × Nat))
    (hne : j ≠ k) : lookupAssoc j (popAssoc k l).2 = lookupAssoc j l := by
  induction l with
  | nil => rfl
  | cons kv rest ih =>
    obtain ⟨k', v⟩ := kv
    simp only [popAssoc]
    split_ifs with hk
    · subst hk
      simp only [lookupAssoc]
      rw [if_neg fun he => hne he.symm]
    · simp only [lookupAssoc]
      split_ifs with hj
      · rfl
      · exact ih

theorem lookupAssoc_of_mem (l : List (Nat × Nat)) (k v : Nat)
    (hnd : (l.map Prod.fst).Nodup) (h : (k, v) ∈ l) :
    lookupAssoc k l = some v := by
  induction l with
  | nil => simp at h
  | cons kv rest ih =>
    obtain ⟨k', v'⟩ := kv
    simp only [List.map_cons, List.nodup_cons] at hnd
    rcases List.mem_cons.1 h with h1 | h2
    · cases h1
      simp [lookupAssoc]
    · have hk : k ∈ rest.map Prod.fst := List.mem_map_of_mem Prod.fst h2
      have hne : k' ≠ k := fun he => hnd.1 (he ▸ hk)
      simp only [lookupAssoc, if_neg hne]
      exact ih hnd.2 h2

theorem mem_of_lookupAssoc (l : List (Nat × Nat)) (k v : Nat)
    (h : lookupAssoc k l = some v) : (k, v) ∈ l := by
  induction l with
  | nil => simp [lookupAssoc] at h
  | cons kv rest ih =>
    obtain ⟨k', v'⟩ := kv
    simp only [lookupAssoc] at h
    split_ifs at h with hk
    · subst hk
      simp only [Option.some.injEq] at h
      subst h
      exact List.mem_cons_self _ _
    · exact List.mem_cons_of_mem _ (ih h)

/-! ### C2: pipeline failure propagation -/

/-- C2 (amended): the pipeline task converts an exception of the
modification stage (and a falsy modified-ISO path, and a download that
returns failure) into the terminal transition `Finish(job, Failed, 0)`,
but an exception raised by cache construction, ISO instance construction
or the download call itself escapes the task uncaught: no boundary
handler converts those into a Failed transition, so as originally stated
— every exception at any point converted to `Finish(job, Failed, 0)` —
the claim fails, as the recorded counterexample shows. -/
theorem C2_pipeline_failure_amended (cacheNew isoNew : Except Unit Unit)
    (download : Except Unit Bool) (modify : Except Unit (Option Nat)) :
    (runModel cacheNew isoNew download modify = RunOutcome.raised
      ↔ cacheNew = Except.error () ∨ isoNew = Except.error ()
        ∨ download = Except.error ())
    ∧ (runModel cacheNew isoNew download modify
        = RunOutcome.finished JobStatus.failed 0
      ↔ cacheNew = Except.ok () ∧ isoNew = Except.ok ()
        ∧ (download = Except.ok false
          ∨ (download = Except.ok true
            ∧ (modify = Except.error () ∨ modify = Except.ok none))))
    ∧ (runModel cacheNew isoNew download modify
        = RunOutcome.finished JobStatus.completed 100
      ↔ cacheNew = Except.ok () ∧ isoNew = Except.ok ()
        ∧ download = Except.ok true ∧ ∃ p, modify = Except.ok (some p)) := by
  cases cacheNew with
  | error u => cases u; simp [runModel]
  | ok u =>
    cases u
    cases isoNew with
    | error v => cases v; simp [runModel]
    | ok v =>
      cases v
      cases download with
      | error w => cases w; simp [runModel]
      | ok b =>
        cases b with
        | false => simp [runModel]
        | true =>
          cases modify with
          | error x => cases x; simp [runModel]
          | ok o =>
            cases o with
            | none => simp [runModel]
            | some p => simp [runModel]

/-- C2 (counterexample): an exception in `CacheManager.new()` — the very
first statement of `Job.run`, outside every `try` — escapes the task
instead of becoming `Finish(job, Failed, 0)`. -/
theorem C2_pipeline_failure_counterexample :
    runModel (Except.error ()) (Except.ok ()) (Except.ok true)
        (Except.ok (some 0)) = RunOutcome.raised
      ∧ RunOutcome.raised ≠ RunOutcome.finished JobStatus.failed 0 := by
  exact ⟨rfl, by decide⟩

/-! ### C3: admission control -/

/-- C3: a submission is answered with the structured admission error
exactly when the registry already holds `MAX_JOBS` (5) or more jobs, and
then the registry is unchanged (no job is created or registered); a
created job grows the registry by one, a cache hit leaves it unchanged;
hence six consecutive cache-miss submissions from an empty registry see
the first five succeed and the sixth rejected. -/
theorem C3_admission_control (count : Nat) (cacheHit : Option Nat) :
    ((post_installer_iso count cacheHit).1 = SubmitResult.admissionError
      ↔ MAX_JOBS ≤ count)
    ∧ ((post_installer_iso count cacheHit).2
      = match (post_installer_iso count cacheHit).1 with
        | SubmitResult.created _ => count + 1
        | _ => count)
    ∧ submitSeq 0 6
      = [SubmitResult.created 0, SubmitResult.created 1, SubmitResult.created 2,
         SubmitResult.created 3, SubmitResult.created 4,
         SubmitResult.admissionError] := by
  by_cases h : count < MAX_JOBS
  · have hb : below_max_jobs count = true := by
      unfold below_max_jobs
      exact decide_eq_true h
    refine ⟨?_, ?_, by decide⟩
    · cases cacheHit with
      | none =>
        simp only [post_installer_iso, hb]
        simp only [MAX_JOBS] at h ⊢
        simp
        omega
      | some j =>
        simp only [post_installer_iso, hb]
        simp only [MAX_JOBS] at h ⊢
        simp
        omega
    · cases cacheHit with
      | none => simp [post_installer_iso, hb]
      | some j => simp [post_installer_iso, hb]
  · have hb : below_max_jobs count = false := by
      unfold below_max_jobs
      exact decide_eq_false h
    refine ⟨?_, ?_, by decide⟩
    · simp only [post_installer_iso, hb]
      simp only [MAX_JOBS] at h ⊢
      simp
      omega
    · simp [post_installer_iso, hb]

/-! ### C4: job lifecycle -/

/-- C4 (amended): the status sequence of a pipeline run follows
Pending → InProgress → {Completed, Failed} with no re-entry and nothing
after a terminal status — except on the artifact-move error path: when
the job completes and the move of the ISO to its final location raises,
`on_finish` writes Failed after Completed, so a terminal status is
re-written and the originally claimed invariant fails, as the recorded
counterexample shows. -/
theorem C4_lifecycle_amended (cacheNew isoNew : Except Unit Unit)
    (download : Except Unit Bool) (modify : Except Unit (Option Nat))
    (moveFails : Bool) :
    lifecycleOk
        (JobStatus.pending :: statusWrites cacheNew isoNew download modify moveFails)
        = true
      ↔ ¬(moveFails = true ∧ cacheNew = Except.ok () ∧ isoNew = Except.ok ()
          ∧ download = Except.ok true ∧ ∃ p, modify = Except.ok (some p)) := by
  cases cacheNew with
  | error u => cases u; simp [statusWrites, lifecycleOk]
  | ok u =>
    cases u
    cases isoNew with
    | error v => cases v; simp [statusWrites, lifecycleOk, stepOk]
    | ok v =>
      cases v
      cases download with
      | error w => cases w; simp [statusWrites, lifecycleOk, stepOk]
      | ok b =>
        cases b with
        | false =>
          cases moveFails with
          | false => simp [statusWrites, onFinishWrites, lifecycleOk, stepOk]
          | true => simp [statusWrites, onFinishWrites, lifecycleOk, stepOk]
        | true =>
          cases modify with
          | error x =>
            cases x
            cases moveFails with
            | false => simp [statusWrites, onFinishWrites, lifecycleOk, stepOk]
            | true => simp [statusWrites, onFinishWrites, lifecycleOk, stepOk]
          | ok o =>
            cases o with
            | none =>
              cases moveFails with
              | false => simp [statusWrites, onFinishWrites, lifecycleOk, stepOk]
              | true => simp [statusWrites, onFinishWrites, lifecycleOk, stepOk]
            | some p =>
              cases moveFails with
              | false => simp [statusWrites, onFinishWrites, lifecycleOk, stepOk]
              | true => simp [statusWrites, onFinishWrites, lifecycleOk, stepOk]

/-- C4 (counterexample): a job that completes and then fails to move its
ISO traverses Pending, InProgress, Completed, Failed — its status
changes again after first reaching the terminal status Completed, so the
claimed lifecycle invariant fails on this trace. -/
theorem C4_lifecycle_counterexample :
    JobStatus.pending
        :: statusWrites (Except.ok ()) (Except.ok ()) (Except.ok true)
          (Except.ok (some 0)) true
      = [JobStatus.pending, JobStatus.in_progress, JobStatus.completed,
         JobStatus.failed]
      ∧ lifecycleOk
          [JobStatus.pending, JobStatus.in_progress, JobStatus.completed,
           JobStatus.failed] = false
      ∧ isTerminal JobStatus.completed = true := by
  exact ⟨rfl, by decide, by decide⟩

/-! ### C5: reference-counted cache GC -/

/-- C5: `delete_by_job` removes the job's own digest mapping and leaves
every other job's mapping alone; when another job still maps to the same
digest it touches neither `by_hash` nor the disk, and when no other job
does, it removes the digest's `by_hash` mapping and the blob file; the
ISO mapping is never touched.  The `Nodup` hypotheses say the assoc
lists model Python dicts (unique keys) and a set of disk paths. -/
theorem C5_cache_gc (st : CacheState) (jid digest pathStr : Nat)
    (hjnd : (st.by_job.map Prod.fst).Nodup)
    (hhnd : (st.by_hash.map Prod.fst).Nodup)
    (hdnd : st.disk.Nodup)
    (hmap : lookupAssoc jid st.by_job = some digest)
    (hd : digest ≠ 0)
    (hpath : lookupAssoc digest st.by_hash = some pathStr)
    (hp : pathStr ≠ 0) :
    lookupAssoc jid (delete_by_job jid st).by_job = none
    ∧ (∀ j', j' ≠ jid →
        lookupAssoc j' (delete_by_job jid st).by_job = lookupAssoc j' st.by_job)
    ∧ ((∃ j', j' ≠ jid ∧ lookupAssoc j' st.by_job = some digest) →
        (delete_by_job jid st).by_hash = st.by_hash
          ∧ (delete_by_job jid st).disk = st.disk)
    ∧ ((¬ ∃ j', j' ≠ jid ∧ lookupAssoc j' st.by_job = some digest) →
        lookupAssoc digest (delete_by_job jid st).by_hash = none
          ∧ pathStr ∉ (delete_by_job jid st).disk)
    ∧ (delete_by_job jid st).iso_by_job = st.iso_by_job := by
  have hpop : popAssoc jid st.by_job = (some digest, (popAssoc jid st.by_job).2) := by
    rw [← hmap, ← popAssoc_fst]
  have hbjnd : ((popAssoc jid st.by_job).2.map Prod.fst).Nodup :=
    ((popAssoc_snd_sublist jid st.by_job).map Prod.fst).nodup hjnd
  have hself : lookupAssoc jid (popAssoc jid st.by_job).2 = none :=
    lookupAssoc_popAssoc_self jid st.by_job hjnd
  have hanyiff : (popAssoc jid st.by_job).2.any (fun kv => kv.2 = digest) = true
      ↔ ∃ j', j' ≠ jid ∧ lookupAssoc j' st.by_job = some digest := by
    constructor
    · intro ha
      obtain ⟨kv, hmem, hv⟩ := List.any_eq_true.1 ha
      rw [decide_eq_true_eq] at hv
      obtain ⟨k0, v0⟩ := kv
      have hlk := lookupAssoc_of_mem (popAssoc jid st.by_job).2 k0 v0 hbjnd hmem
      rw [show v0 = digest from hv] at hlk
      have hne : k0 ≠ jid := by
        intro he
        rw [he, hself] at hlk
        exact Option.noConfusion hlk
      exact ⟨k0, hne, by rw [← lookupAssoc_popAssoc_other jid k0 st.by_job hne]; exact hlk⟩
    · intro ⟨j', hne, hl⟩
      have hl' : lookupAssoc j' (popAssoc jid st.by_job).2 = some digest := by
        rw [lookupAssoc_popAssoc_other jid j' st.by_job hne]
        exact hl
      have hmem := mem_of_lookupAssoc _ _ _ hl'
      exact List.any_eq_true.2 ⟨(j', digest), hmem, by simp⟩
  have hmain : delete_by_job jid st =
      (if ((popAssoc jid st.by_job).2.any fun kv => kv.2 = digest) = true then
        { st with by_job := (popAssoc jid st.by_job).2 }
      else
        { st with
          by_job := (popAssoc jid st.by_job).2
          by_hash := (popAssoc digest st.by_hash).2
          disk := if pathStr ∈ st.disk then st.disk.erase pathStr else st.disk }) := by
    unfold delete_by_job
    split
    next x heq =>
      exfalso
      have hfst := popAssoc_fst jid st.by_job
      rw [heq, hmap] at hfst
      exact Option.noConfusion hfst
    next d bj heq =>
      have hfst := popAssoc_fst jid st.by_job
      rw [heq, hmap] at hfst
      have hd' : d = digest := by simpa using hfst
      rw [hd'] at heq ⊢
      have hbj : bj = (popAssoc jid st.by_job).2 := (congrArg Prod.snd heq).symm
      subst hbj
      rw [if_neg hd]
      by_cases hstill :
          ((popAssoc jid st.by_job).2.any fun kv => kv.2 = digest) = true
      · rw [if_pos hstill, if_pos hstill]
      · rw [if_neg hstill, if_neg hstill]
        split
        next y heq2 =>
          exfalso
          have hfst2 := popAssoc_fst digest st.by_hash
          rw [heq2, hpath] at hfst2
          exact Option.noConfusion hfst2
        next pS bh heq2 =>
          have hfst2 := popAssoc_fst digest st.by_hash
          rw [heq2, hpath] at hfst2
          have hps : pS = pathStr := by simpa using hfst2
          rw [hps] at heq2 ⊢
          have hbh : bh = (popAssoc digest st.by_hash).2 := (congrArg Prod.snd heq2).symm
          subst hbh
          rw [if_neg hp]
  by_cases hstill : ((popAssoc jid st.by_job).2.any fun kv => kv.2 = digest) = true
  · rw [hmain, if_pos hstill]
    refine ⟨hself, ?_, fun _ => ⟨rfl, rfl⟩, ?_, rfl⟩
    · intro j' hne
      exact lookupAssoc_popAssoc_other jid j' st.by_job hne
    · intro hno
      exact absurd (hanyiff.1 hstill) hno
  · rw [hmain, if_neg hstill]
    refine ⟨hself, ?_, ?_, ?_, rfl⟩
    · intro j' hne
      exact lookupAssoc_popAssoc_other jid j' st.by_job hne
    · intro hex
      exact absurd (hanyiff.2 hex) hstill
    · intro _
      refine ⟨lookupAssoc_popAssoc_self digest st.by_hash hhnd, ?_⟩
      show pathStr ∉ (if pathStr ∈ st.disk then st.disk.erase pathStr else st.disk)
      by_cases hmem : pathStr ∈ st.disk
      · rw [if_pos hmem]
        intro hin
        exact ((List.Nodup.mem_erase_iff hdnd).1 hin).1 rfl
      · rw [if_neg hmem]
        exact hmem

/-- The manifest with two jobs (1 and 2) sharing one cached answer file:
both map to digest 7, whose blob lives at path 42 on disk. -/
def c5State : CacheState :=
  { by_job := [(1, 7), (2, 7)], by_hash := [(7, 42)], iso_by_job := [],
    disk := [42] }

/-- Witness: deleting job 1 keeps the shared blob and its mapping;
deleting job 2 afterwards removes both. -/
theorem C5_cache_gc_witness :
    (delete_by_job 1 c5State).by_hash = c5State.by_hash
      ∧ (delete_by_job 1 c5State).disk = c5State.disk
      ∧ lookupAssoc 7 (delete_by_job 2 (delete_by_job 1 c5State)).by_hash = none
      ∧ 42 ∉ (delete_by_job 2 (delete_by_job 1 c5State)).disk := by
  have h1 := C5_cache_gc c5State 1 7 42 (by decide) (by decide) (by decide)
    (by decide) (by decide) (by decide) (by decide)
  have hshared : ∃ j', j' ≠ 1 ∧ lookupAssoc j' c5State.by_job = some 7 :=
    ⟨2, by decide, by decide⟩
  have h2 := C5_cache_gc (delete_by_job 1 c5State) 2 7 42 (by decide) (by decide)
    (by decide) (by decide) (by decide) (by decide) (by decide)
  have hnone : ¬ ∃ j', j' ≠ 2
      ∧ lookupAssoc j' (delete_by_job 1 c5State).by_job = some 7 := by
    intro ⟨j', hne, hl⟩
    by_cases hj : (2 : Nat) = j'
    · exact hne hj.symm
    · have : lookupAssoc j' (delete_by_job 1 c5State).by_job = none := by
        show lookupAssoc j' [(2, 7)] = none
        simp [lookupAssoc, hj]
      rw [this] at hl
      exact Option.noConfusion hl
  exact ⟨(h1.2.2.1 hshared).1, (h1.2.2.1 hshared).2,
    (h2.2.2.2.1 hnone).1, (h2.2.2.2.1 hnone).2⟩

/-! ### C7: observer attachment -/

/-- C7 (amended): the websocket route attaches an observer only to an
observer-free job, immediately sending the new observer a snapshot of
the job's current status and progress; when the job does not exist or an
observer is already attached, the new channel is closed with code 1008
and the job state — including the already-attached observer — is left
unchanged.  The route therefore rejects rather than replaces: the
originally claimed replacement behaviour fails, as the recorded
counterexample shows. -/
theorem C7_observer_attach_amended (ws : Nat) (j : JobObs) :
    installer_iso_ws_route none ws = (WsOutcome.closed1008, none)
    ∧ (∀ s, j.socket = some s →
        installer_iso_ws_route (some j) ws = (WsOutcome.closed1008, some j))
    ∧ (j.socket = none →
        installer_iso_ws_route (some j) ws
          = (WsOutcome.attached j.status j.progress,
             some { j with socket := some ws })) := by
  refine ⟨rfl, ?_, ?_⟩
  · intro s hs
    simp [installer_iso_ws_route, hs]
  · intro hs
    simp [installer_iso_ws_route, hs]

/-- A job mid-pipeline with observer channel 1 attached. -/
def c7Job : JobObs :=
  { status := JobStatus.in_progress, progress := 42, socket := some 1 }

/-- C7 (counterexample): attaching channel 2 to a job that already has
observer 1 closes channel 2 with code 1008 and keeps observer 1 — the
existing observer is not replaced and the new channel is not installed,
so the claimed replacement semantics fails. -/
theorem C7_observer_attach_counterexample :
    installer_iso_ws_route (some c7Job) 2 = (WsOutcome.closed1008, some c7Job)
      ∧ c7Job.socket = some 1
      ∧ (∀ st pr, (WsOutcome.closed1008 : WsOutcome) ≠ WsOutcome.attached st pr) := by
  refine ⟨by decide, by decide, ?_⟩
  intro st pr
  exact WsOutcome.noConfusion

/-- Witness: attaching channel 5 to an observer-free pending job
installs it and sends the snapshot of the current state. -/
theorem C7_observer_attach_witness :
    ({ status := JobStatus.pending, progress := 0, socket := none } : JobObs).socket
        = none
      ∧ installer_iso_ws_route
          (some { status := JobStatus.pending, progress := 0, socket := none }) 5
        = (WsOutcome.attached JobStatus.pending 0,
           some { status := JobStatus.pending, progress := 0, socket := some 5 }) := by
  refine ⟨rfl, ?_⟩
  exact (C7_observer_attach_amended 5
    { status := JobStatus.pending, progress := 0, socket := none }).2.2 rfl

/-! ### C8: cache reads never return dangling paths -/

/-- C8: every path `get_path_by_job`, `get_answer_path` or `get_iso_path`
returns exists on disk at the time of the check, and each returns absent
both when the job has no mapping and when the mapped path's file is no
longer on disk. -/
theorem C8_no_dangling_paths (st : CacheState) (jid p : Nat) :
    (get_path_by_job st jid = some p → p ∈ st.disk)
    ∧ (get_answer_path st jid = some p → p ∈ st.disk)
    ∧ (get_iso_path st jid = some p → p ∈ st.disk)
    ∧ (lookupAssoc jid st.by_job = none → get_path_by_job st jid = none)
    ∧ (∀ digest, lookupAssoc jid st.by_job = some digest →
        (lookupAssoc digest st.by_hash).getD 0 ∉ st.disk →
        get_path_by_job st jid = none)
    ∧ (lookupAssoc jid st.iso_by_job = none → get_iso_path st jid = none)
    ∧ (∀ q, lookupAssoc jid st.iso_by_job = some q → q ∉ st.disk →
        get_iso_path st jid = none) := by
  have hpj : ∀ x, get_path_by_job st jid = some x → x ∈ st.disk := by
    intro x hx
    unfold get_path_by_job at hx
    split at hx
    · exact Option.noConfusion hx
    · rename_i dg heq
      by_cases h0 : dg = 0
      · rw [if_pos h0] at hx
        exact Option.noConfusion hx
      · rw [if_neg h0] at hx
        by_cases hmem : (lookupAssoc dg st.by_hash).getD 0 ∈ st.disk
        · rw [if_pos hmem] at hx
          simp only [Option.some.injEq] at hx
          subst hx
          exact hmem
        · rw [if_neg hmem] at hx
          exact Option.noConfusion hx
  refine ⟨hpj p, hpj p, ?_, ?_, ?_, ?_, ?_⟩
  · intro hx
    unfold get_iso_path at hx
    split at hx
    · exact Option.noConfusion hx
    · rename_i q heq
      by_cases h0 : q = 0
      · rw [if_pos h0] at hx
        exact Option.noConfusion hx
      · rw [if_neg h0] at hx
        by_cases hmem : q ∈ st.disk
        · rw [if_pos hmem] at hx
          simp only [Option.some.injEq] at hx
          subst hx
          exact hmem
        · rw [if_neg hmem] at hx
          exact Option.noConfusion hx
  · intro hl
    simp [get_path_by_job, hl]
  · intro digest hl hmem
    unfold get_path_by_job
    simp only [hl]
    by_cases h0 : digest = 0
    · rw [if_pos h0]
    · rw [if_neg h0, if_neg hmem]
  · intro hl
    simp [get_iso_path, hl]
  · intro q hl hmem
    unfold get_iso_path
    simp only [hl]
    by_cases h0 : q = 0
    · rw [if_pos h0]
    · rw [if_neg h0, if_neg hmem]

/-- A manifest where job 1's answer blob (digest 7, path 42) is on disk
but its recorded ISO path 99 is not. -/
def c8State : CacheState :=
  { by_job := [(1, 7)], by_hash := [(7, 42)], iso_by_job := [(1, 99)],
    disk := [42] }

/-- Witness: on `c8State`, the answer-path lookup returns the on-disk
path 42 and the ISO lookup returns absent because path 99 is gone. -/
theorem C8_no_dangling_paths_witness :
    get_path_by_job c8State 1 = some 42
      ∧ (42 ∈ c8State.disk)
      ∧ get_iso_path c8State 1 = none := by
  have h := C8_no_dangling_paths c8State 1 42
  exact ⟨by decide, h.1 (by decide), h.2.2.2.2.2.2 99 (by decide) (by decide)⟩

end SafePC






